import Mathlib

/-!
# Verification of the LDPC codec core

A shallow embedding, in Lean 4, of the core algorithms of the
`fec-ldpc-codec` repository:

* `encode_LDPC` (src/ldpc_encoder.c): GF(2) encoding ecc = inf · G;
* `count_floop` and `factorial` (src/ldpc_matrix.c): 4-cycle counting;
* `generate_Hmatrix` (src/ldpc_matrix.c): Gallager regular parity matrix;
* `generate_Gmatrix` (src/ldpc_matrix.c): generator matrix by GF(2)
  Gaussian elimination on the augmented matrix X = [Hᵀ | I], with column
  swaps mirrored into H in its second phase;
* `ldpc_decode_spa` and `compute_llr_from_pyx` (src/ldpc_decoder.c):
  the sum-product decoder loop and the symbol-likelihood-to-bit-LLR mapper.

Machine integers (`int` entries of the C matrices; all values kept by the
code in these cells are 0/1) are modelled as `ℕ`; C's bitwise `^` and `&`
become `Nat.xor` / `Nat.land`.  `double` values are modelled as real
numbers.  Two-dimensional arrays are modelled as functions `ℕ → ℕ → ℕ`
(resp. `ℕ → ℕ → ℝ`); in-place mutation becomes explicit state passing,
and every C `for` loop becomes a fold over the list of its index values.
The C library `rand()` is modelled by an arbitrary stream `rnd : ℕ → ℕ`
of draws, consumed in call order.
-/

namespace LDPC

/-- Entry update for a matrix modelled as a function: `write A i j x`
is `A` with cell `(i, j)` overwritten by `x` (the model of `A[i][j] = x`). -/
def write (A : ℕ → ℕ → ℕ) (i j x : ℕ) : ℕ → ℕ → ℕ :=
  fun r c => if r = i ∧ c = j then x else A r c

/-- A cell value an LDPC matrix can hold: the C code only ever stores 0 or 1. -/
def is01 (x : ℕ) : Prop := x = 0 ∨ x = 1

instance is01.decidable (x : ℕ) : Decidable (is01 x) :=
  inferInstanceAs (Decidable (x = 0 ∨ x = 1))

/-! ## Encoder (src/ldpc_encoder.c, `encode_LDPC`)

```c
for (i = 0; i < N_LDPC; i++) {
  int val = 0;
  for (j = 0; j < K_LDPC; j++) val ^= (inf[j] & G[j][i]);
  ecc[i] = val;
}
```
-/

/-- Embedding of `encode_LDPC`: cell `i` of the output codeword.
The inner loop is the fold; the outer loop over `i` is the function. -/
def encode_LDPC (inf : ℕ → ℕ) (G : ℕ → ℕ → ℕ) (K : ℕ) : ℕ → ℕ :=
  fun i => (List.range K).foldl (fun val j => val ^^^ (inf j &&& G j i)) 0

/-- Embedding of the C helper `factorial` (loop `for i = 1..n: f *= i`). -/
def factorial (n : ℕ) : ℕ :=
  (List.range' 1 n).foldl (fun f i => f * i) 1

/-- The adjacency list `var_nodes[j]`: the first `wc` row indices `i < M`
with `H[i][j] != 0`, collected in increasing order of `i`. -/
def var_nodes (H : ℕ → ℕ → ℕ) (M wc : ℕ) (j : ℕ) : List ℕ :=
  ((List.range M).filter (fun i => H i j != 0)).take wc

/-- The doubly nested `shared` count of `count_floop`: number of index pairs
`(k, l)` with `A[k] = B[l]`. -/
def count_shared (A B : List ℕ) : ℕ :=
  A.foldl (fun shared a => shared + B.count a) 0

/-- Embedding of `count_floop`. -/
def count_floop (H : ℕ → ℕ → ℕ) (N wc wr : ℕ) : ℕ :=
  let M := N * wc / wr
  (List.range (N - 1)).foldl
    (fun floop i =>
      (List.range' (i + 1) (N - (i + 1))).foldl
        (fun floop2 j =>
          let shared := count_shared (var_nodes H M wc i) (var_nodes H M wc j)
          if 2 ≤ shared then
            floop2 + factorial shared / (2 * factorial (shared - 2))
          else floop2)
        floop)
    0

/-- The contribution of the column pair `(i, j)` to the 4-cycle count, as the
C loop body computes it. -/
def floop_term (H : ℕ → ℕ → ℕ) (M wc : ℕ) (i j : ℕ) : ℕ :=
  let shared := count_shared (var_nodes H M wc i) (var_nodes H M wc j)
  if 2 ≤ shared then factorial shared / (2 * factorial (shared - 2)) else 0

/-- Bit-faithful embedding of the C helper `factorial`: the accumulator `f` is
a 32-bit `int`, so each product is reduced modulo `2^32` (the two's-complement
bit pattern; signed overflow is undefined behaviour in C and is modelled here
as the customary wraparound).  For `n ≤ 12` every partial product is below
`2^31` and this agrees with the unbounded `factorial`; `13! = 6227020800`
overflows. -/
def factorial32 (n : ℕ) : ℕ :=
  (List.range' 1 n).foldl (fun f i => f * i % 4294967296) 1

/-- Bit-faithful embedding of `count_floop` with 32-bit `int` arithmetic: the
`factorial` calls wrap modulo `2^32`, as do the product `2 * factorial(...)`
and the `floop += ...` accumulator.  The quotient is C `int` division; on bit
patterns below `2^31` (nonnegative `int` values, which is the case in every
run considered in this file) it coincides with the natural-number division
used here. -/
def count_floop32 (H : ℕ → ℕ → ℕ) (N wc wr : ℕ) : ℕ :=
  let M := N * wc / wr
  (List.range (N - 1)).foldl
    (fun floop i =>
      (List.range' (i + 1) (N - (i + 1))).foldl
        (fun floop2 j =>
          let shared := count_shared (var_nodes H M wc i) (var_nodes H M wc j)
          if 2 ≤ shared then
            (floop2 +
              factorial32 shared / (2 * factorial32 (shared - 2) % 4294967296))
              % 4294967296
          else floop2)
        floop)
    0

/-- One Fisher-Yates step: the array swap `tmp = perm[j]; perm[j] = perm[r];
perm[r] = tmp` on a permutation modelled as a function. -/
def swap_idx (p : ℕ → ℕ) (a b : ℕ) : ℕ → ℕ :=
  fun x => if x = a then p b else if x = b then p a else p x

/-- The permutation built for one Gallager block: identity initialisation
followed by the shuffle loop, drawing `rnd (base + j) % N` for `r`. -/
def make_perm (rnd : ℕ → ℕ) (N base : ℕ) : ℕ → ℕ :=
  (List.range N).foldl (fun p j => swap_idx p j (rnd (base + j) % N)) id

/-- The result of the zero-init and deterministic block-0 loops, as one stage. -/
def block0_stage (N wc wr : ℕ) : ℕ → ℕ → ℕ :=
  let M := N * wc / wr
  let block_rows := M / wc
  (List.range block_rows).foldl
    (fun H i =>
      (List.range' (i * wr) ((i + 1) * wr - i * wr)).foldl
        (fun H j => write H i j 1) H)
    (fun _ _ => 0)

/-- Embedding of `generate_Hmatrix`.  The zero-init plus block-0 loops are the
stage `block0_stage` defined below; block `i ≥ 1` consumes the `N` random
draws `rnd ((i-1)*N + j)`, `j < N`, in call order. -/
def generate_Hmatrix (rnd : ℕ → ℕ) (N wc wr : ℕ) : ℕ → ℕ → ℕ :=
  let M := N * wc / wr
  let block_rows := M / wc
  (List.range' 1 (wc - 1)).foldl
    (fun H i =>
      let perm := make_perm rnd N ((i - 1) * N)
      (List.range' (block_rows * i) (block_rows * (i + 1) - block_rows * i)).foldl
        (fun H j =>
          (List.range N).foldl
            (fun H k => write H j k (H (j - block_rows * i) (perm k)))
            H)
        H)
    (block0_stage N wc wr)

/-! ## SPA decoder (src/ldpc_decoder.c, `ldpc_decode_spa`)

The `double` values (channel LLRs, messages `u`, `v`) are modelled as real
numbers; matrices `u`, `v` are dense `ℕ → ℕ → ℝ` functions initialised to 0,
exactly like the `calloc`-ed C arrays.  The `int` output array `ecc` starts
as the arbitrary prior contents `ecc0` of the caller's buffer, since the C
function only writes it inside the iteration loop.
-/

/-- `sign_val`: +1 for `x ≥ 0`, −1 otherwise. -/
noncomputable def sign_val (x : ℝ) : ℝ := if 0 ≤ x then 1 else -1

/-- `spf(x) = log((e^x + 1)/(e^x - 1))` with the input clipped into
`[1e-7, 30]` first. -/
noncomputable def spf (x : ℝ) : ℝ :=
  let x' := if x < 1e-7 then 1e-7 else if 30 < x then 30 else x
  Real.log ((Real.exp x' + 1) / (Real.exp x' - 1))

/-- Check-node adjacency `check_node[i]`: the columns `j < N` with
`H[i][j] != 0`, in increasing order (the C scan order); `deg_c[i]` is its
length. -/
def check_node (H : ℕ → ℕ → ℕ) (N : ℕ) (i : ℕ) : List ℕ :=
  (List.range N).filter (fun j => H i j != 0)

/-- Variable-node adjacency `variable_node[j]`: the rows `i < M` with
`H[i][j] != 0`, in increasing order; `deg_v[j]` is its length. -/
def variable_node (H : ℕ → ℕ → ℕ) (M : ℕ) (j : ℕ) : List ℕ :=
  (List.range M).filter (fun i => H i j != 0)

/-- The state carried from one SPA iteration to the next: the two message
matrices and the tentative hard decision. -/
structure SpaState where
  u : ℕ → ℕ → ℝ
  v : ℕ → ℕ → ℝ
  ecc : ℕ → ℕ

/-- The check-node message `v[i][j]`: product of signs times
`spf` of the sum of `spf |LLR + u|` over the other neighbours of check `i`.
The C loop skips the list position of `j`; since the adjacency list has no
duplicates, that is the same as skipping the value `j`. -/
noncomputable def check_msg (LLR : ℕ → ℝ) (u : ℕ → ℕ → ℝ) (neigh : List ℕ)
    (i j : ℕ) : ℝ :=
  let others := neigh.filter (fun var => var != j)
  let prod_sign := (others.map (fun var => sign_val (LLR var + u i var))).prod
  let sum_spf := (others.map (fun var => spf (abs (LLR var + u i var)))).sum
  prod_sign * spf sum_spf

/-- One iteration of the flooding schedule: check-node update (into `v`),
variable-node update (into `u`, reading the new `v`), tentative hard
decision (into `ecc`, reading the new `v`). -/
noncomputable def spa_iter (H : ℕ → ℕ → ℕ) (LLR : ℕ → ℝ) (M N : ℕ)
    (s : SpaState) : SpaState :=
  let v2 := fun i j =>
    if i < M ∧ j < N ∧ H i j ≠ 0 then check_msg LLR s.u (check_node H N i) i j
    else s.v i j
  let u2 := fun i j =>
    if j < N ∧ i < M ∧ H i j ≠ 0 then
      (((variable_node H M j).filter (fun cnode => cnode != i)).map
        (fun cnode => v2 cnode j)).sum
    else s.u i j
  let ecc2 := fun j =>
    if j < N then
      if 0 ≤ LLR j + ((variable_node H M j).map (fun i => v2 i j)).sum then 1 else 0
    else s.ecc j
  ⟨u2, v2, ecc2⟩

/-- The parity check `H·ecc^T = 0`: every check row XORs its tentative
bits to 0. -/
def parity_ok (H : ℕ → ℕ → ℕ) (M N : ℕ) (ecc : ℕ → ℕ) : Bool :=
  (List.range M).all
    (fun i => ((check_node H N i).foldl (fun parity jj => parity ^^^ ecc jj) 0) == 0)

/-- The state at entry of the iteration loop: `u`, `v` zeroed, `ecc` holding
the caller's buffer contents. -/
def spa_init (ecc0 : ℕ → ℕ) : SpaState := ⟨fun _ _ => 0, fun _ _ => 0, ecc0⟩

/-- The iteration loop `for (iter = 0; iter < max_iter; iter++) { ...; if
(parity_ok) break; }`, returning the final state and the number of
executed iterations. -/
noncomputable def spa_loop (H : ℕ → ℕ → ℕ) (LLR : ℕ → ℝ) (M N : ℕ) :
    ℕ → SpaState → SpaState × ℕ
  | 0, s => (s, 0)
  | fuel + 1, s =>
    let s2 := spa_iter H LLR M N s
    if parity_ok H M N s2.ecc then (s2, 1)
    else
      let p := spa_loop H LLR M N fuel s2
      (p.1, p.2 + 1)

/-- The outputs of `ldpc_decode_spa`: the decoded codeword buffer, the
information buffer, and (for specification purposes) the number of loop
iterations executed. -/
structure SpaResult where
  ecc : ℕ → ℕ
  inf : ℕ → ℕ
  iters : ℕ

/-- Embedding of `ldpc_decode_spa`.  `max_iter` is a C `int`, modelled as
`ℤ`; the loop body runs `max 0 max_iter` times unless the parity check
stops it early.  After the loop, `inf[i] = ecc[i + (N - K)]`. -/
noncomputable def ldpc_decode_spa (LLR : ℕ → ℝ) (ecc0 : ℕ → ℕ)
    (H : ℕ → ℕ → ℕ) (M N K : ℕ) (max_iter : ℤ) : SpaResult :=
  let p := spa_loop H LLR M N max_iter.toNat (spa_init ecc0)
  ⟨p.1.ecc, fun i => p.1.ecc (i + (N - K)), p.2⟩

/-! ## Bit-wise LLR computation (src/ldpc_decoder.c, `compute_llr_from_pyx`)

```c
int logE = (int)log2((double)E);
symbol_bits[k][b] = (k >> b) & 1;
for (i = 0; i < N; i++)
  for (b = 0; b < logE; b++) {
    p1 = sum of pyx[k][i] over k with symbol_bits[k][b];  p0 = the others;
    if (p1 <= 0.0) p1 = 1e-300;  if (p0 <= 0.0) p0 = 1e-300;
    LLR[b + i * logE] = log(p1 / p0);
  }
```
For `E = 2^m` the C cast `(int)log2(E)` is exactly `m`, i.e. `Nat.log2 E`.
-/

/-- Cell update for a `double` array modelled as a function. -/
def writeR (A : ℕ → ℝ) (idx : ℕ) (x : ℝ) : ℕ → ℝ :=
  fun n => if n = idx then x else A n

/-- The bit label `symbol_bits[k][b] = (k >> b) & 1`. -/
def symbol_bits (k b : ℕ) : ℕ := (k >>> b) &&& 1

/-- The accumulation loop over symbols `k < E`: `p1` gets `pyx[k][i]` when
bit `b` of `k` is set, `p0` otherwise. -/
noncomputable def pyx_sums (pyx : ℕ → ℕ → ℝ) (E i b : ℕ) : ℝ × ℝ :=
  (List.range E).foldl
    (fun ps k =>
      if symbol_bits k b ≠ 0 then (ps.1 + pyx k i, ps.2) else (ps.1, ps.2 + pyx k i))
    (0, 0)

/-- The value stored into `LLR[b + i * logE]`: `log(p1 / p0)` after the
`<= 0` guards replace a non-positive sum by `1e-300`. -/
noncomputable def llr_cell (pyx : ℕ → ℕ → ℝ) (E i b : ℕ) : ℝ :=
  Real.log
    ((if (pyx_sums pyx E i b).1 ≤ 0 then 1e-300 else (pyx_sums pyx E i b).1) /
     (if (pyx_sums pyx E i b).2 ≤ 0 then 1e-300 else (pyx_sums pyx E i b).2))

/-- Embedding of `compute_llr_from_pyx`; `LLR0` is the prior contents of the
caller's output buffer (cells the loops do not reach keep it). -/
noncomputable def compute_llr_from_pyx (pyx : ℕ → ℕ → ℝ) (E N : ℕ)
    (LLR0 : ℕ → ℝ) : ℕ → ℝ :=
  (List.range N).foldl
    (fun LLR i =>
      (List.range (Nat.log2 E)).foldl
        (fun LLR b => writeR LLR (b + i * Nat.log2 E) (llr_cell pyx E i b))
        LLR)
    LLR0

/-- The literal reading of the specification sentence for the LLR mapper:
"both sums floored at a tiny positive epsilon (1e-300) before the
division/log", i.e. `max` with `1e-300`.  Kept side by side with the
code-faithful `llr_cell` to compare the two. -/
noncomputable def llr_spec_floored (pyx : ℕ → ℕ → ℝ) (E : ℕ) (i b : ℕ) : ℝ :=
  let p1 := ∑ k in (Finset.range E).filter (fun k => (k >>> b) &&& 1 = 1), pyx k i
  let p0 := ∑ k in (Finset.range E).filter (fun k => (k >>> b) &&& 1 = 0), pyx k i
  Real.log (max p1 1e-300 / max p0 1e-300)

/-! ## Generator matrix construction (src/ldpc_matrix.c, `generate_Gmatrix`)

The augmented matrix `X = [Hᵀ | I_N]` (N rows, M+N columns) is eliminated in
two phases.  Phase 1 (pivot columns `j = 0..M-1`): if the pivot is missing,
first search a row `i > j` with `X[i][j] = 1` and swap rows, otherwise
search `k = M+N-1` down to `j+1` with `X[j][k] = 1` and swap columns of `X`
only; then clear column `j` with GF(2) row additions.  Phase 2 (pivot
columns `j = 2M..M+N-1`, pivot row `j-M`): same, except the column search
runs over `k = M+N-1` down to `M`, and a column swap `k ↔ j` is mirrored
onto columns `k-M ↔ j-M` of `H`.  Finally `G[i-M][j-M] = X[i][j]` for
`i ∈ [M,N)`, `j ∈ [M,M+N)`.
-/

/-- The three-`memcpy` swap of rows `a` and `b` of `X`. -/
def row_swap (X : ℕ → ℕ → ℕ) (a b : ℕ) : ℕ → ℕ → ℕ :=
  fun r c => if r = a then X b c else if r = b then X a c else X r c

/-- The column swap `for (l = 0; l < N; l++) swap(X[l][a], X[l][b])`. -/
def col_swap (X : ℕ → ℕ → ℕ) (N a b : ℕ) : ℕ → ℕ → ℕ :=
  fun r c => if r < N ∧ c = a then X r b else if r < N ∧ c = b then X r a else X r c

/-- The mirrored swap of columns `a` and `b` of `H`
(`for (l = 0; l < M; l++) swap(H[l][a], H[l][b])`). -/
def hcol_swap (H : ℕ → ℕ → ℕ) (M a b : ℕ) : ℕ → ℕ → ℕ :=
  fun r c => if r < M ∧ c = a then H r b else if r < M ∧ c = b then H r a else H r c

/-- The body of the elimination loop: if `i != pr && X[i][jcol] == 1`, row `i`
gets row `pr` XORed into its `MN` cells. -/
def elim_step (MN pr jcol : ℕ) (X : ℕ → ℕ → ℕ) (i : ℕ) : ℕ → ℕ → ℕ :=
  if i ≠ pr ∧ X i jcol = 1 then
    fun r c => if r = i ∧ c < MN then X r c ^^^ X pr c else X r c
  else X

/-- The elimination loop at pivot row `pr`, pivot column `jcol`:
`for (i = 0; i < N; i++) if (i != pr && X[i][jcol] == 1) X[i][·] ^= X[pr][·]`
over the `MN = M+N` cells of the row. -/
def eliminate (X : ℕ → ℕ → ℕ) (MN N pr jcol : ℕ) : ℕ → ℕ → ℕ :=
  (List.range N).foldl (elim_step MN pr jcol) X

/-- The ascending pivot-row search `for (i = lo; i < N; i++) if (X[i][j] == 1)`. -/
def find_pivot_row (X : ℕ → ℕ → ℕ) (j lo N : ℕ) : Option ℕ :=
  (List.range' lo (N - lo)).find? (fun i => X i j == 1)

/-- The descending pivot-column search
`for (k = hi - 1; k > lo - 1; k--) if (X[row][k] == 1)`. -/
def find_pivot_col (X : ℕ → ℕ → ℕ) (row lo hi : ℕ) : Option ℕ :=
  (List.range' lo (hi - lo)).reverse.find? (fun k => X row k == 1)

/-- One phase-1 step at pivot column `j`: pivot repair (row swap, else column
swap inside `X`), then elimination. -/
def p1_step (M N : ℕ) (X : ℕ → ℕ → ℕ) (j : ℕ) : ℕ → ℕ → ℕ :=
  let X1 :=
    if X j j = 0 then
      match find_pivot_row X j (j + 1) N with
      | some i => row_swap X i j
      | none =>
        match find_pivot_col X j (j + 1) (M + N) with
        | some k => col_swap X N k j
        | none => X
    else X
  eliminate X1 (M + N) N j j

/-- Phase 1: steps `j = 0 .. n-1` in order. -/
def phase1 (M N : ℕ) : ℕ → (ℕ → ℕ → ℕ) → (ℕ → ℕ → ℕ)
  | 0, X => X
  | n + 1, X => p1_step M N (phase1 M N n X) n

/-- The two-matrix state of phase 2: `X` and the (possibly column-swapped) `H`. -/
structure GState where
  X : ℕ → ℕ → ℕ
  H : ℕ → ℕ → ℕ

/-- One phase-2 step at pivot column `j` (pivot row `j - M`): pivot repair
(row swap, else column swap mirrored onto `H`), then elimination. -/
def p2_step (M N : ℕ) (s : GState) (j : ℕ) : GState :=
  let pr := j - M
  if s.X pr j = 0 then
    match find_pivot_row s.X j (pr + 1) N with
    | some i => ⟨eliminate (row_swap s.X i pr) (M + N) N pr j, s.H⟩
    | none =>
      match find_pivot_col s.X pr M (M + N) with
      | some k =>
        ⟨eliminate (col_swap s.X N k j) (M + N) N pr j,
          hcol_swap s.H M (k - M) (j - M)⟩
      | none => ⟨eliminate s.X (M + N) N pr j, s.H⟩
  else ⟨eliminate s.X (M + N) N pr j, s.H⟩

/-- Phase 2: steps `j = 2M .. 2M+n-1` in order. -/
def phase2 (M N : ℕ) : ℕ → GState → GState
  | 0, s => s
  | n + 1, s => p2_step M N (phase2 M N n s) (2 * M + n)

/-- Step 1 of `generate_Gmatrix`: the augmented matrix `X = [Hᵀ | I_N]`. -/
def build_X (H : ℕ → ℕ → ℕ) (M N : ℕ) : ℕ → ℕ → ℕ :=
  fun i j =>
    if i < N ∧ j < M then H j i
    else if i < N ∧ M ≤ j ∧ j < M + N then (if i = j - M then 1 else 0)
    else 0

/-- Embedding of `generate_Gmatrix`: returns the extracted `G` (first
component) and the possibly column-permuted `H` left behind (second
component).  Phase 1 only transforms `X`; the input `H` is passed to phase 2
untouched, mirroring the C code, whose phase-1 block never mentions `H`. -/
def generate_Gmatrix (H : ℕ → ℕ → ℕ) (N wc wr : ℕ) :
    (ℕ → ℕ → ℕ) × (ℕ → ℕ → ℕ) :=
  let M := N * wc / wr
  let s2 := phase2 M N (N - M) ⟨phase1 M N M (build_X H M N), H⟩
  (fun i j => s2.X (M + i) (M + j), s2.H)

/-! ### Ghost invariants for the `generate_Gmatrix` correctness proof (C1)

The correctness argument for `H·Gᵀ = 0` is carried by a bundle of invariants
over `ZMod 2`, with three ghost components: a right-inverse `Y` of `X`
(witnessing that the `N` rows of `X` stay linearly independent, so a pivot is
always found), an annihilator matrix `Cg` (each row of `Cg` is orthogonal to
every row of `X`), and a set `Dead` of right-block column positions whose
correspondence with the current `H` was destroyed by a phase-1 cross swap.
-/

/-- All entries of the `N × MN` live region are bits. -/
def Rng01 (N MN : ℕ) (X : ℕ → ℕ → ℕ) : Prop :=
  ∀ i c, i < N → c < MN → is01 (X i c)

/-- `Y` is a right inverse of (the live region of) `X` over GF(2):
`X · Y = I_N`. -/
def XisInv (M N : ℕ) (X : ℕ → ℕ → ℕ) (Y : ℕ → ℕ → ZMod 2) : Prop :=
  ∀ i c, i < N → c < N →
    (∑ t in Finset.range (M + N), (X i t : ZMod 2) * Y t c) =
      if i = c then 1 else 0

/-- Every row of the ghost matrix `Cg` annihilates every row of `X` over
GF(2). -/
def BInv (M N : ℕ) (Cg : ℕ → ℕ → ZMod 2) (X : ℕ → ℕ → ℕ) : Prop :=
  ∀ m i, m < M → i < N →
    (∑ t in Finset.range (M + N), Cg m t * (X i t : ZMod 2)) = 0

/-- Outside `Dead`, the right-block columns of `Cg` are the columns of the
current `H`. -/
def CInv (M N : ℕ) (Cg : ℕ → ℕ → ZMod 2) (H : ℕ → ℕ → ℕ)
    (Dead : Finset ℕ) : Prop :=
  ∀ m s, m < M → s < N → s ∉ Dead → Cg m (M + s) = (H m s : ZMod 2)

/-- Dead right-block columns are zero at every row `≥ lvl`. -/
def DInv (M N lvl : ℕ) (X : ℕ → ℕ → ℕ) (Dead : Finset ℕ) : Prop :=
  ∀ s ∈ Dead, s < N ∧ ∀ i, lvl ≤ i → i < N → X i (M + s) = 0

/-- The finished pivot columns `c < lvl` of `X` are the unit vectors `e_c`. -/
def EInv1 (N lvl : ℕ) (X : ℕ → ℕ → ℕ) : Prop :=
  ∀ c i, c < lvl → i < N → X i c = if i = c then 1 else 0

/-- Ghost bookkeeping for the elimination step: the GF(2) sum, over the rows
`i'` that get row `pr` added, of the entries `Y t i'`. -/
def chiS (N pr jcol : ℕ) (X : ℕ → ℕ → ℕ) (Y : ℕ → ℕ → ZMod 2) (t : ℕ) : ZMod 2 :=
  ∑ i' in Finset.range N, (if i' ≠ pr ∧ X i' jcol = 1 then 1 else 0) * Y t i'

/-- The updated right inverse after an elimination step (`Y·E` for the
transvection `E` of the step). -/
def elimY (N pr jcol : ℕ) (X : ℕ → ℕ → ℕ) (Y : ℕ → ℕ → ZMod 2) :
    ℕ → ℕ → ZMod 2 :=
  fun t c => Y t c + (if c = pr then 1 else 0) * chiS N pr jcol X Y t

/-- The phase-1 invariant, after `j` completed steps. -/
def P1Inv (M N j : ℕ) (H0 : ℕ → ℕ → ℕ) (X : ℕ → ℕ → ℕ) : Prop :=
  ∃ Cg Y Dead, Rng01 N (M + N) X ∧ XisInv M N X Y ∧ BInv M N Cg X ∧
    CInv M N Cg H0 Dead ∧ DInv M N j X Dead ∧ EInv1 N j X

/-- The phase-2 invariant (the threshold of `DInv` and `EInv1` is `M`). -/
def P2Inv (M N : ℕ) (s : GState) : Prop :=
  ∃ Cg Y Dead, Rng01 N (M + N) s.X ∧ XisInv M N s.X Y ∧ BInv M N Cg s.X ∧
    CInv M N Cg s.H Dead ∧ DInv M N M s.X Dead ∧ EInv1 N M s.X

theorem is01_xor {a b : ℕ} (ha : is01 a) (hb : is01 b) : is01 (a ^^^ b) := by
  rcases ha with rfl | rfl <;> rcases hb with rfl | rfl <;> simp [is01]

theorem is01_land {a b : ℕ} (ha : is01 a) (hb : is01 b) : a &&& b = a * b := by
  rcases ha with rfl | rfl <;> rcases hb with rfl | rfl <;> rfl

theorem is01_xor_eq_add_mod {a b : ℕ} (ha : is01 a) (hb : is01 b) :
    a ^^^ b = (a + b) % 2 := by
  rcases ha with rfl | rfl <;> rcases hb with rfl | rfl <;> rfl

theorem encode_foldl_spec (inf : ℕ → ℕ) (G : ℕ → ℕ → ℕ) (i : ℕ) (K : ℕ)
    (h1 : ∀ j < K, is01 (inf j)) (h2 : ∀ j < K, is01 (G j i)) :
    (List.range K).foldl (fun val j => val ^^^ (inf j &&& G j i)) 0 =
      (∑ j in Finset.range K, inf j * G j i) % 2 := by
  induction K with
  | zero => rfl
  | succ n ih =>
    have hin : is01 (inf n) := h1 n (Nat.lt_succ_self n)
    have hGn : is01 (G n i) := h2 n (Nat.lt_succ_self n)
    have ih2 := ih (fun j hj => h1 j (hj.trans (Nat.lt_succ_self n)))
      (fun j hj => h2 j (hj.trans (Nat.lt_succ_self n)))
    have hb : is01 (inf n * G n i) := by
      rcases hin with h | h <;> rcases hGn with h2 | h2 <;> rw [h, h2] <;> simp [is01]
    rw [List.range_succ, List.foldl_append, List.foldl_cons, List.foldl_nil, ih2,
      Finset.sum_range_succ, is01_land hin hGn,
      is01_xor_eq_add_mod (Nat.mod_two_eq_zero_or_one _) hb]
    omega

/-- C8: for every information vector of length `K` with entries in {0,1} and
every K×N matrix `G` with entries in {0,1}, `encode_LDPC` produces a codeword
with `codeword[i] = XOR over j in [0,K) of (information[j] AND G[j][i])` for
every `i` in `[0,N)`; the XOR-of-ANDs is stated as the mod-2 sum of products,
to which it is equal on {0,1} entries. -/
theorem claim_C8 (inf : ℕ → ℕ) (G : ℕ → ℕ → ℕ) (N K : ℕ)
    (h1 : ∀ j < K, is01 (inf j)) (h2 : ∀ j < K, ∀ i < N, is01 (G j i))
    (i : ℕ) (hi : i < N) :
    encode_LDPC inf G K i = (∑ j in Finset.range K, inf j * G j i) % 2 :=
  encode_foldl_spec inf G i K h1 (fun j hj => h2 j hj i hi)

theorem claim_C8_witness :
    encode_LDPC (fun j => if j = 0 then 1 else 0) (fun _ _ => 1) 2 0 =
      (∑ j in Finset.range 2, (if j = 0 then 1 else 0) * (fun (_ _ : ℕ) => 1) j 0) % 2 :=
  claim_C8 (fun j => if j = 0 then 1 else 0) (fun _ _ => 1) 2 2
    (by decide) (by decide) 0 (by decide)

/-! ## 4-cycle counting (src/ldpc_matrix.c, `factorial` and `count_floop`)

```c
static int factorial(int n) { int f = 1; for (int i = 1; i <= n; i++) f *= i; return f; }

int count_floop(int **H, int N, int wc, int wr) {
  int M = (N * wc) / wr;
  ... var_nodes[j][idx++] = i  (first wc rows i with H[i][j] != 0, scanning upward) ...
  for i < N-1: for j in (i, N):
    shared = #{(k,l) < wc×wc | var_nodes[i][k] == var_nodes[j][l]};
    if (shared >= 2) floop += factorial(shared) / (2 * factorial(shared - 2));
}
```
-/

theorem foldl_add (g : ℕ → ℕ) (l : List ℕ) (a : ℕ) :
    l.foldl (fun acc x => acc + g x) a = a + (l.map g).sum := by
  induction l generalizing a with
  | nil => simp
  | cons x xs ih => simp [List.foldl_cons, ih, Nat.add_assoc]

theorem sum_map_range' {M : Type} [AddCommMonoid M] (g : ℕ → M) (n : ℕ) : ∀ s : ℕ,
    ((List.range' s n).map g).sum = ∑ k in Finset.range n, g (s + k) := by
  induction n with
  | zero => intro s; simp
  | succ m ih =>
    intro s
    rw [List.range'_succ, List.map_cons, List.sum_cons, ih (s + 1),
      Finset.sum_range_succ', add_comm]
    congr 1
    apply Finset.sum_congr rfl
    intro k _
    congr 1
    omega

theorem factorial_eq (n : ℕ) : factorial n = Nat.factorial n := by
  induction n with
  | zero => rfl
  | succ m ih =>
    have hconcat : List.range' 1 (m + 1) = List.range' 1 m ++ [1 + m] := by
      simpa using @List.range'_concat 1 1 m
    rw [factorial, hconcat, List.foldl_append, List.foldl_cons, List.foldl_nil]
    rw [show (List.range' 1 m).foldl (fun f i => f * i) 1 = factorial m from rfl, ih]
    rw [Nat.factorial_succ]
    ring

theorem factorial_div_choose (s : ℕ) (hs : 2 ≤ s) :
    factorial s / (2 * factorial (s - 2)) = s * (s - 1) / 2 := by
  obtain ⟨k, rfl⟩ : ∃ k, s = k + 2 := ⟨s - 2, by omega⟩
  rw [factorial_eq, factorial_eq]
  have h1 : Nat.factorial (k + 2) = (k + 2) * (k + 1) * Nat.factorial k := by
    rw [Nat.factorial_succ, Nat.factorial_succ]; ring
  have h2 : k + 2 - 2 = k := by omega
  rw [h1, h2]
  rw [show 2 * Nat.factorial k = Nat.factorial k * 2 from Nat.mul_comm _ _]
  rw [show (k + 2) * (k + 1) * Nat.factorial k = Nat.factorial k * ((k + 2) * (k + 1)) by ring]
  rw [Nat.mul_div_mul_left _ _ (Nat.factorial_pos k)]
  congr 1

theorem foldl_if_add (g : ℕ → ℕ) (p : ℕ → Prop) [DecidablePred p] (l : List ℕ) (a : ℕ) :
    l.foldl (fun acc x => if p x then acc + g x else acc) a
      = a + (l.map (fun x => if p x then g x else 0)).sum := by
  induction l generalizing a with
  | nil => simp
  | cons x xs ih =>
    rw [List.foldl_cons, ih, List.map_cons, List.sum_cons]
    split <;> omega

theorem sum_map_range {M : Type} [AddCommMonoid M] (g : ℕ → M) (n : ℕ) :
    ((List.range n).map g).sum = ∑ k in Finset.range n, g k := by
  rw [List.range_eq_range']
  simpa using sum_map_range' g n 0

theorem count_floop_eq_sum (H : ℕ → ℕ → ℕ) (N wc wr : ℕ) :
    count_floop H N wc wr =
      ∑ i in Finset.range N, ∑ j in Finset.Ico (i + 1) N, floop_term H (N * wc / wr) wc i j := by
  have hinner : ∀ i floop : ℕ,
      (List.range' (i + 1) (N - (i + 1))).foldl
        (fun floop2 j =>
          let shared := count_shared (var_nodes H (N * wc / wr) wc i)
            (var_nodes H (N * wc / wr) wc j)
          if 2 ≤ shared then
            floop2 + factorial shared / (2 * factorial (shared - 2))
          else floop2)
        floop
      = floop + ∑ j in Finset.Ico (i + 1) N, floop_term H (N * wc / wr) wc i j := by
    intro i floop
    rw [foldl_if_add
      (fun j => factorial (count_shared (var_nodes H (N * wc / wr) wc i)
        (var_nodes H (N * wc / wr) wc j)) /
          (2 * factorial (count_shared (var_nodes H (N * wc / wr) wc i)
            (var_nodes H (N * wc / wr) wc j) - 2)))
      (fun j => 2 ≤ count_shared (var_nodes H (N * wc / wr) wc i)
        (var_nodes H (N * wc / wr) wc j))]
    congr 1
  have houter :
      count_floop H N wc wr
        = ∑ i in Finset.range (N - 1), ∑ j in Finset.Ico (i + 1) N,
            floop_term H (N * wc / wr) wc i j := by
    show (List.range (N - 1)).foldl _ 0 = _
    rw [List.foldl_ext _
      (fun floop i => floop + ∑ j in Finset.Ico (i + 1) N, floop_term H (N * wc / wr) wc i j)
      0 (fun floop i _ => hinner i floop)]
    rw [foldl_add (fun i => ∑ j in Finset.Ico (i + 1) N, floop_term H (N * wc / wr) wc i j),
      sum_map_range]
    omega
  rw [houter]
  rcases Nat.eq_zero_or_pos N with rfl | hN
  · rfl
  · obtain ⟨m, rfl⟩ : ∃ m, N = m + 1 := ⟨N - 1, by omega⟩
    rw [Finset.sum_range_succ]
    simp

theorem sum_count_eq_card (B : List ℕ) (hB : B.Nodup) :
    ∀ A : List ℕ, A.Nodup →
      (A.map (fun a => B.count a)).sum = (A.toFinset ∩ B.toFinset).card := by
  intro A
  induction A with
  | nil => intro _; simp
  | cons x xs ih =>
    intro hA
    rcases List.nodup_cons.mp hA with ⟨hx, hxs⟩
    rw [List.map_cons, List.sum_cons, ih hxs, List.toFinset_cons]
    by_cases hxB : x ∈ B
    · rw [List.count_eq_one_of_mem hB hxB,
        Finset.insert_inter_of_mem (List.mem_toFinset.mpr hxB),
        Finset.card_insert_of_not_mem
          (fun hmem => hx (List.mem_toFinset.mp (Finset.mem_of_mem_inter_left hmem)))]
      omega
    · rw [List.count_eq_zero_of_not_mem hxB,
        Finset.insert_inter_of_not_mem (fun hmem => hxB (List.mem_toFinset.mp hmem))]
      omega

theorem count_shared_eq_card (A B : List ℕ) (hA : A.Nodup) (hB : B.Nodup) :
    count_shared A B = (A.toFinset ∩ B.toFinset).card := by
  rw [count_shared, foldl_add (fun a => B.count a), Nat.zero_add]
  exact sum_count_eq_card B hB A hA

theorem var_nodes_nodup (H : ℕ → ℕ → ℕ) (M wc j : ℕ) : (var_nodes H M wc j).Nodup :=
  List.Nodup.sublist (List.take_sublist wc _)
    (List.Nodup.filter _ (List.nodup_range M))

theorem count_shared_le (A B : List ℕ) (hB : B.Nodup) :
    count_shared A B ≤ A.length := by
  rw [count_shared, foldl_add (fun a => B.count a), Nat.zero_add]
  induction A with
  | nil => simp
  | cons x xs ih =>
    rw [List.map_cons, List.sum_cons, List.length_cons]
    have hx : B.count x ≤ 1 := List.nodup_iff_count_le_one.mp hB x
    omega

theorem factorial32_eq (s : ℕ) (hs : s ≤ 12) : factorial32 s = factorial s := by
  interval_cases s <;> rfl

theorem foldl_if_add_mod (g : ℕ → ℕ) (p : ℕ → Prop) [DecidablePred p]
    (m : ℕ) (l : List ℕ) (a : ℕ)
    (hb : a + (l.map (fun x => if p x then g x else 0)).sum < m) :
    l.foldl (fun acc x => if p x then (acc + g x) % m else acc) a =
      l.foldl (fun acc x => if p x then acc + g x else acc) a := by
  induction l generalizing a with
  | nil => rfl
  | cons x xs ih =>
    rw [List.map_cons, List.sum_cons] at hb
    rw [List.foldl_cons, List.foldl_cons]
    by_cases hp : p x
    · rw [if_pos hp] at hb
      rw [if_pos hp, if_pos hp, Nat.mod_eq_of_lt (by omega)]
      exact ih (a + g x) (by omega)
    · rw [if_neg hp] at hb
      rw [if_neg hp, if_neg hp]
      exact ih a (by omega)

theorem floop_term32_eq (H : ℕ → ℕ → ℕ) (M wc i j : ℕ) (hwc : wc ≤ 12) :
    factorial32 (count_shared (var_nodes H M wc i) (var_nodes H M wc j)) /
      (2 * factorial32
          (count_shared (var_nodes H M wc i) (var_nodes H M wc j) - 2)
        % 4294967296) =
    factorial (count_shared (var_nodes H M wc i) (var_nodes H M wc j)) /
      (2 * factorial
          (count_shared (var_nodes H M wc i) (var_nodes H M wc j) - 2)) := by
  have hlen : (var_nodes H M wc i).length ≤ wc := by
    rw [var_nodes, List.length_take]
    exact min_le_left _ _
  have hsh : count_shared (var_nodes H M wc i) (var_nodes H M wc j) ≤ 12 :=
    le_trans (le_trans (count_shared_le _ _ (var_nodes_nodup H M wc j)) hlen) hwc
  rw [factorial32_eq _ hsh, factorial32_eq _ (by omega)]
  have hfac : factorial
      (count_shared (var_nodes H M wc i) (var_nodes H M wc j) - 2) ≤ 479001600 := by
    have h1 : factorial
        (count_shared (var_nodes H M wc i) (var_nodes H M wc j) - 2) ≤ factorial 12 := by
      rw [factorial_eq, factorial_eq]
      exact Nat.factorial_le (by omega)
    have h2 : factorial 12 = 479001600 := rfl
    omega
  rw [Nat.mod_eq_of_lt (by omega)]

theorem count_floop32_eq (H : ℕ → ℕ → ℕ) (N wc wr : ℕ) (hwc : wc ≤ 12)
    (hbound : (∑ i in Finset.range N, ∑ j in Finset.Ico (i + 1) N,
        floop_term H (N * wc / wr) wc i j) < 2147483648) :
    count_floop32 H N wc wr = count_floop H N wc wr := by
  have hrow_le : ∀ i, i < N →
      (∑ j in Finset.Ico (i + 1) N, floop_term H (N * wc / wr) wc i j)
        ≤ ∑ i' in Finset.range N, ∑ j in Finset.Ico (i' + 1) N,
            floop_term H (N * wc / wr) wc i' j :=
    fun i hi => Finset.single_le_sum
      (f := fun i' => ∑ j in Finset.Ico (i' + 1) N,
        floop_term H (N * wc / wr) wc i' j)
      (fun _ _ => Nat.zero_le _) (Finset.mem_range.mpr hi)
  have hinner32 : ∀ i floop : ℕ, i < N →
      floop ≤ (∑ i' in Finset.range N, ∑ j in Finset.Ico (i' + 1) N,
        floop_term H (N * wc / wr) wc i' j) →
      (List.range' (i + 1) (N - (i + 1))).foldl
        (fun floop2 j =>
          let shared := count_shared (var_nodes H (N * wc / wr) wc i)
            (var_nodes H (N * wc / wr) wc j)
          if 2 ≤ shared then
            (floop2 +
              factorial32 shared / (2 * factorial32 (shared - 2) % 4294967296))
              % 4294967296
          else floop2)
        floop
      = floop + ∑ j in Finset.Ico (i + 1) N,
          floop_term H (N * wc / wr) wc i j := by
    intro i floop hiN hfl
    have hg : ∀ (fl j : ℕ),
        (if 2 ≤ count_shared (var_nodes H (N * wc / wr) wc i)
            (var_nodes H (N * wc / wr) wc j) then
          (fl + factorial32 (count_shared (var_nodes H (N * wc / wr) wc i)
              (var_nodes H (N * wc / wr) wc j)) /
            (2 * factorial32 (count_shared (var_nodes H (N * wc / wr) wc i)
              (var_nodes H (N * wc / wr) wc j) - 2) % 4294967296)) % 4294967296
        else fl)
        = (if 2 ≤ count_shared (var_nodes H (N * wc / wr) wc i)
            (var_nodes H (N * wc / wr) wc j) then
          (fl + factorial (count_shared (var_nodes H (N * wc / wr) wc i)
              (var_nodes H (N * wc / wr) wc j)) /
            (2 * factorial (count_shared (var_nodes H (N * wc / wr) wc i)
              (var_nodes H (N * wc / wr) wc j) - 2))) % 4294967296
        else fl) := by
      intro fl j
      rw [floop_term32_eq H (N * wc / wr) wc i j hwc]
    rw [List.foldl_ext _
      (fun fl j =>
        if 2 ≤ count_shared (var_nodes H (N * wc / wr) wc i)
            (var_nodes H (N * wc / wr) wc j) then
          (fl + factorial (count_shared (var_nodes H (N * wc / wr) wc i)
              (var_nodes H (N * wc / wr) wc j)) /
            (2 * factorial (count_shared (var_nodes H (N * wc / wr) wc i)
              (var_nodes H (N * wc / wr) wc j) - 2))) % 4294967296
        else fl)
      floop (fun fl j _ => hg fl j)]
    have hms : ((List.range' (i + 1) (N - (i + 1))).map
        (fun j => if 2 ≤ count_shared (var_nodes H (N * wc / wr) wc i)
            (var_nodes H (N * wc / wr) wc j) then
          factorial (count_shared (var_nodes H (N * wc / wr) wc i)
              (var_nodes H (N * wc / wr) wc j)) /
            (2 * factorial (count_shared (var_nodes H (N * wc / wr) wc i)
              (var_nodes H (N * wc / wr) wc j) - 2))
        else 0)).sum
        = ∑ j in Finset.Ico (i + 1) N, floop_term H (N * wc / wr) wc i j := rfl
    rw [foldl_if_add_mod
      (fun j => factorial (count_shared (var_nodes H (N * wc / wr) wc i)
          (var_nodes H (N * wc / wr) wc j)) /
        (2 * factorial (count_shared (var_nodes H (N * wc / wr) wc i)
          (var_nodes H (N * wc / wr) wc j) - 2)))
      (fun j => 2 ≤ count_shared (var_nodes H (N * wc / wr) wc i)
        (var_nodes H (N * wc / wr) wc j))
      4294967296 _ floop
      (by rw [hms]; have := hrow_le i hiN; omega),
      foldl_if_add
      (fun j => factorial (count_shared (var_nodes H (N * wc / wr) wc i)
          (var_nodes H (N * wc / wr) wc j)) /
        (2 * factorial (count_shared (var_nodes H (N * wc / wr) wc i)
          (var_nodes H (N * wc / wr) wc j) - 2)))
      (fun j => 2 ≤ count_shared (var_nodes H (N * wc / wr) wc i)
        (var_nodes H (N * wc / wr) wc j)), hms]
  have houter : ∀ n, n ≤ N - 1 →
      (List.range n).foldl
        (fun floop i =>
          (List.range' (i + 1) (N - (i + 1))).foldl
            (fun floop2 j =>
              let shared := count_shared (var_nodes H (N * wc / wr) wc i)
                (var_nodes H (N * wc / wr) wc j)
              if 2 ≤ shared then
                (floop2 + factorial32 shared /
                    (2 * factorial32 (shared - 2) % 4294967296))
                  % 4294967296
              else floop2)
            floop)
        0
      = ∑ i in Finset.range n, ∑ j in Finset.Ico (i + 1) N,
          floop_term H (N * wc / wr) wc i j := by
    intro n
    induction n with
    | zero => intro _; simp
    | succ n ih =>
      intro hn
      rw [List.range_succ, List.foldl_append, List.foldl_cons, List.foldl_nil,
        ih (by omega)]
      simp only []
      rw [hinner32 n _ (by omega)
        (Finset.sum_le_sum_of_subset (Finset.range_subset.mpr (by omega))),
        Finset.sum_range_succ]
  show (List.range (N - 1)).foldl _ 0 = count_floop H N wc wr
  rw [houter (N - 1) le_rfl, count_floop_eq_sum]
  rcases Nat.eq_zero_or_pos N with rfl | hN
  · rfl
  · obtain ⟨m, rfl⟩ : ∃ m, N = m + 1 := ⟨N - 1, by omega⟩
    rw [Finset.sum_range_succ]
    simp

/-- **C6 counterexample.** At `N = 2`, `wc = 13`, `wr = 1` with the all-ones
`26 × 2` matrix (whose columns each contain at least `wc` ones, so the
original claim's domain hypothesis holds), the single column pair shares 13
rows.  The C `factorial` computes in 32-bit `int` and `13! = 6227020800`
overflows; under two's-complement wraparound the loop body adds
`1932053504 / 79833600 = 24` instead of `C(13,2) = 78`, so the program's
32-bit computation does not return the binomial-coefficient sum the original
claim asserts (the unbounded model, by contrast, would return 78). -/
theorem claim_C6_counterexample :
    (∀ j < 2, 13 ≤ ((List.range (2 * 13 / 1)).filter
        (fun i => (fun (_ _ : ℕ) => 1) i j != 0)).length) ∧
    count_floop32 (fun _ _ => 1) 2 13 1 = 24 ∧
    count_floop (fun _ _ => 1) 2 13 1 = 78 ∧
    (∑ i in Finset.range 2, ∑ j in Finset.Ico (i + 1) 2,
        (fun s => if 2 ≤ s then s * (s - 1) / 2 else 0)
          (((var_nodes (fun _ _ => 1) (2 * 13 / 1) 13 i).toFinset ∩
            (var_nodes (fun _ _ => 1) (2 * 13 / 1) 13 j).toFinset).card)) = 78 ∧
    count_floop32 (fun _ _ => 1) 2 13 1 ≠
      (∑ i in Finset.range 2, ∑ j in Finset.Ico (i + 1) 2,
        (fun s => if 2 ≤ s then s * (s - 1) / 2 else 0)
          (((var_nodes (fun _ _ => 1) (2 * 13 / 1) 13 i).toFinset ∩
            (var_nodes (fun _ _ => 1) (2 * 13 / 1) 13 j).toFinset).card)) :=
  ⟨by decide, by decide, by decide, by decide, by decide⟩

/-- C6 (amended): for every `H` whose columns each contain at least `wc` ones,
provided `wc ≤ 12` and the total 4-cycle count is below `2^31` (so no
intermediate of the 32-bit `int` computation overflows), `count_floop` — in
its bit-faithful 32-bit model just as in the unbounded model — returns the
sum, over all unordered pairs of distinct columns, of `shared*(shared-1)/2`
for those pairs whose first `wc` one-positions coincide in `shared ≥ 2` rows,
contributing 0 when `shared < 2`; and for `2 ≤ shared ≤ wc` the wrapped
factorial agrees with the unbounded one and the factorial-based expression
equals the binomial coefficient `C(shared, 2)` exactly.  (Without the `wc ≤
12` bound the claim fails: see the counterexample at `wc = 13`.) -/
theorem claim_C6 (H : ℕ → ℕ → ℕ) (N wc wr : ℕ)
    (hcols : ∀ j < N,
      wc ≤ ((List.range (N * wc / wr)).filter (fun i => H i j != 0)).length)
    (hwc : wc ≤ 12)
    (hbound : (∑ i in Finset.range N, ∑ j in Finset.Ico (i + 1) N,
        (fun s => if 2 ≤ s then s * (s - 1) / 2 else 0)
          (((var_nodes H (N * wc / wr) wc i).toFinset ∩
            (var_nodes H (N * wc / wr) wc j).toFinset).card)) < 2147483648) :
    count_floop32 H N wc wr = count_floop H N wc wr ∧
    count_floop H N wc wr =
      (∑ i in Finset.range N, ∑ j in Finset.Ico (i + 1) N,
        (fun s => if 2 ≤ s then s * (s - 1) / 2 else 0)
          (((var_nodes H (N * wc / wr) wc i).toFinset ∩
            (var_nodes H (N * wc / wr) wc j).toFinset).card))
    ∧ ∀ s, 2 ≤ s → s ≤ wc →
        factorial32 s = factorial s ∧
        factorial s / (2 * factorial (s - 2)) = Nat.choose s 2 := by
  have hterm : ∀ i j, floop_term H (N * wc / wr) wc i j =
      (fun s => if 2 ≤ s then s * (s - 1) / 2 else 0)
        (((var_nodes H (N * wc / wr) wc i).toFinset ∩
          (var_nodes H (N * wc / wr) wc j).toFinset).card) := by
    intro i j
    rw [floop_term]
    rw [count_shared_eq_card _ _ (var_nodes_nodup H _ wc i) (var_nodes_nodup H _ wc j)]
    split
    · case isTrue h =>
      rw [factorial_div_choose _ h]
      exact (if_pos h).symm
    · case isFalse h =>
      exact (if_neg h).symm
  have hsums : (∑ i in Finset.range N, ∑ j in Finset.Ico (i + 1) N,
        floop_term H (N * wc / wr) wc i j) =
      (∑ i in Finset.range N, ∑ j in Finset.Ico (i + 1) N,
        (fun s => if 2 ≤ s then s * (s - 1) / 2 else 0)
          (((var_nodes H (N * wc / wr) wc i).toFinset ∩
            (var_nodes H (N * wc / wr) wc j).toFinset).card)) :=
    Finset.sum_congr rfl (fun i _ => Finset.sum_congr rfl (fun j _ => hterm i j))
  refine ⟨count_floop32_eq H N wc wr hwc (by rw [hsums]; exact hbound), ?_, ?_⟩
  · rw [count_floop_eq_sum]
    exact hsums
  · intro s hs hsw
    exact ⟨factorial32_eq s (by omega),
      by rw [factorial_div_choose s hs, Nat.choose_two_right]⟩

theorem claim_C6_witness :
    (∀ j < 2, 2 ≤ ((List.range (2 * 2 / 2)).filter
        (fun i => (fun (_ _ : ℕ) => 1) i j != 0)).length) ∧
    (2 ≤ 12) ∧
    ((∑ i in Finset.range 2, ∑ j in Finset.Ico (i + 1) 2,
        (fun s => if 2 ≤ s then s * (s - 1) / 2 else 0)
          (((var_nodes (fun _ _ => 1) (2 * 2 / 2) 2 i).toFinset ∩
            (var_nodes (fun _ _ => 1) (2 * 2 / 2) 2 j).toFinset).card))
      < 2147483648) ∧
    (count_floop32 (fun _ _ => 1) 2 2 2 = count_floop (fun _ _ => 1) 2 2 2 ∧
    count_floop (fun _ _ => 1) 2 2 2 =
      (∑ i in Finset.range 2, ∑ j in Finset.Ico (i + 1) 2,
        (fun s => if 2 ≤ s then s * (s - 1) / 2 else 0)
          (((var_nodes (fun _ _ => 1) (2 * 2 / 2) 2 i).toFinset ∩
            (var_nodes (fun _ _ => 1) (2 * 2 / 2) 2 j).toFinset).card))
    ∧ ∀ s, 2 ≤ s → s ≤ 2 →
        factorial32 s = factorial s ∧
        factorial s / (2 * factorial (s - 2)) = Nat.choose s 2) :=
  ⟨by decide, by decide, by decide,
    claim_C6 (fun _ _ => 1) 2 2 2 (by decide) (by decide) (by decide)⟩

/-- C10: `count_floop` reads `H` only through the first `wc` one-positions of
each column (and, being a pure function of its arguments in this embedding,
never modifies `H`): two parity-check matrices of the same dimensions whose
columns agree on their first `wc` one-positions get the same count, so ones
after the `wc`-th in any column cannot affect the result. -/
theorem claim_C10 (H1 H2 : ℕ → ℕ → ℕ) (N wc wr : ℕ)
    (h : ∀ j < N,
      ((List.range (N * wc / wr)).filter (fun i => H1 i j != 0)).take wc =
      ((List.range (N * wc / wr)).filter (fun i => H2 i j != 0)).take wc) :
    count_floop H1 N wc wr = count_floop H2 N wc wr := by
  rw [count_floop_eq_sum, count_floop_eq_sum]
  apply Finset.sum_congr rfl
  intro i hi
  apply Finset.sum_congr rfl
  intro j hj
  have hij : i < N := Finset.mem_range.mp hi
  have hjN : j < N := (Finset.mem_Ico.mp hj).2
  rw [floop_term, floop_term, var_nodes, var_nodes, var_nodes, var_nodes,
    h i hij, h j hjN]

theorem claim_C10_witness :
    (∀ j < 4,
      ((List.range (4 * 1 / 2)).filter
        (fun i => (fun (r _ : ℕ) => if r = 0 then 1 else 0) i j != 0)).take 1 =
      ((List.range (4 * 1 / 2)).filter
        (fun i => (fun (_ _ : ℕ) => 1) i j != 0)).take 1) ∧
    count_floop (fun r _ => if r = 0 then 1 else 0) 4 1 2 =
      count_floop (fun _ _ => 1) 4 1 2 :=
  ⟨by decide, claim_C10 (fun r _ => if r = 0 then 1 else 0) (fun _ _ => 1) 4 1 2 (by decide)⟩

/-! ## Gallager parity-check matrix construction (src/ldpc_matrix.c, `generate_Hmatrix`)

```c
int M = (N * wc) / wr;  int block_rows = M / wc;
for i<M, j<N: H[i][j] = 0;
for (i = 0; i < block_rows; i++)
  for (j = i*wr; j < (i+1)*wr; j++) H[i][j] = 1;
for (i = 1; i < wc; i++) {
  for (j = 0; j < N; j++) perm[j] = j;
  for (j = 0; j < N; j++) { int r = rand() % N; swap(perm[j], perm[r]); }
  for (j = block_rows*i; j < block_rows*(i+1); j++)
    for (k = 0; k < N; k++) H[j][k] = H[j - block_rows*i][perm[k]];
}
```

Cells outside the M×N region are 0 in the model (the C code leaves them
unallocated); all claims only look at cells inside the region.
-/

theorem write_apply (A : ℕ → ℕ → ℕ) (i j v r c : ℕ) :
    write A i j v r c = if r = i ∧ c = j then v else A r c := rfl

theorem foldl_write_row (i v : ℕ) :
    ∀ (l : List ℕ) (H : ℕ → ℕ → ℕ) (r c : ℕ),
      (l.foldl (fun H j => write H i j v) H) r c =
        if r = i ∧ c ∈ l then v else H r c := by
  intro l
  induction l with
  | nil => intro H r c; simp
  | cons x xs ih =>
    intro H r c
    rw [List.foldl_cons, ih, write_apply]
    by_cases hr : r = i
    · subst hr
      by_cases hcx : c = x
      · subst hcx; simp
      · by_cases hcxs : c ∈ xs <;> simp [hcx, hcxs]
    · simp [hr]

theorem block0_fold_char (wr : ℕ) :
    ∀ (l : List ℕ) (H : ℕ → ℕ → ℕ) (r c : ℕ),
      (l.foldl
        (fun H i =>
          (List.range' (i * wr) ((i + 1) * wr - i * wr)).foldl
            (fun H j => write H i j 1) H)
        H) r c =
      if r ∈ l ∧ r * wr ≤ c ∧ c < (r + 1) * wr then 1 else H r c := by
  intro l
  induction l with
  | nil => intro H r c; simp
  | cons i xs ih =>
    intro H r c
    rw [List.foldl_cons, ih, foldl_write_row]
    have hiwr : (i + 1) * wr = i * wr + wr := Nat.succ_mul i wr
    have hrwr : (r + 1) * wr = r * wr + wr := Nat.succ_mul r wr
    have hmem : c ∈ List.range' (i * wr) ((i + 1) * wr - i * wr) ↔
        i * wr ≤ c ∧ c < (i + 1) * wr := by
      rw [List.mem_range'_1]
      omega
    by_cases hri : r = i
    · subst hri
      simp only [List.mem_cons, hmem]
      split_ifs <;> tauto
    · simp only [List.mem_cons]
      split_ifs <;> tauto

theorem copy_row_char (src j : ℕ) (p : ℕ → ℕ) (hsrc : src ≠ j) :
    ∀ (l : List ℕ) (H : ℕ → ℕ → ℕ) (r c : ℕ),
      (l.foldl (fun H k => write H j k (H src (p k))) H) r c =
        if r = j ∧ c ∈ l then H src (p c) else H r c := by
  intro l
  induction l with
  | nil => intro H r c; simp
  | cons x xs ih =>
    intro H r c
    rw [List.foldl_cons, ih]
    have hsrcrow : ∀ y, write H j x (H src (p x)) src y = H src y := by
      intro y
      rw [write_apply, if_neg]
      intro hcon
      exact hsrc hcon.1
    by_cases hrj : r = j
    · by_cases hcx : c = x
      · by_cases hcxs : c ∈ xs
        · rw [if_pos ⟨hrj, hcxs⟩, if_pos ⟨hrj, List.mem_cons.mpr (Or.inl hcx)⟩]
          exact hsrcrow (p c)
        · rw [if_neg (fun h => hcxs h.2), if_pos ⟨hrj, List.mem_cons.mpr (Or.inl hcx)⟩,
            write_apply, if_pos ⟨hrj, hcx⟩, hcx]
      · by_cases hcxs : c ∈ xs
        · rw [if_pos ⟨hrj, hcxs⟩, if_pos ⟨hrj, List.mem_cons.mpr (Or.inr hcxs)⟩]
          exact hsrcrow (p c)
        · rw [if_neg (fun h => hcxs h.2),
            if_neg (fun h => (List.mem_cons.mp h.2).elim hcx hcxs),
            write_apply, if_neg (fun h => hcx h.2)]
    · rw [if_neg (fun h => hrj h.1), if_neg (fun h => hrj h.1), write_apply,
        if_neg (fun h => hrj h.1)]

theorem block_copy_char (br i N : ℕ) (hi : 1 ≤ i) (p : ℕ → ℕ) :
    ∀ (l : List ℕ), (∀ j ∈ l, br * i ≤ j ∧ j < br * (i + 1)) →
      ∀ (H : ℕ → ℕ → ℕ) (r c : ℕ),
        (l.foldl
          (fun H j =>
            (List.range N).foldl (fun H k => write H j k (H (j - br * i) (p k))) H)
          H) r c =
        if r ∈ l ∧ c ∈ List.range N then H (r - br * i) (p c) else H r c := by
  intro l
  induction l with
  | nil => intro _ H r c; simp
  | cons j js ih =>
    intro hl H r c
    obtain ⟨hjlo, hjhi⟩ := hl j (List.mem_cons_self j js)
    have hbr : 1 ≤ br := by
      by_contra hcon
      have : br = 0 := by omega
      subst this
      simp at hjhi
    have hbrle : br ≤ br * i := Nat.le_mul_of_pos_right br (by omega)
    have hsrc : j - br * i ≠ j := by omega
    have hmul : br * (i + 1) = br * i + br := Nat.mul_succ br i
    rw [List.foldl_cons, ih (fun a ha => hl a (List.mem_cons_of_mem _ ha))]
    simp only [copy_row_char (j - br * i) j p hsrc]
    by_cases h1 : r ∈ js ∧ c ∈ List.range N
    · obtain ⟨hrlo, hrhi⟩ := hl r (List.mem_cons_of_mem _ h1.1)
      have hne : ¬(r - br * i = j ∧ p c ∈ List.range N) := by
        intro hcon
        omega
      rw [if_pos h1, if_neg hne, if_pos ⟨List.mem_cons.mpr (Or.inr h1.1), h1.2⟩]
    · rw [if_neg h1]
      by_cases h2 : r = j ∧ c ∈ List.range N
      · rw [if_pos h2, if_pos ⟨List.mem_cons.mpr (Or.inl h2.1), h2.2⟩, h2.1]
      · rw [if_neg h2, if_neg]
        intro hcon
        rcases List.mem_cons.mp hcon.1 with hx | hx
        · exact h2 ⟨hx, hcon.2⟩
        · exact h1 ⟨hx, hcon.2⟩

theorem swap_idx_eq_comp (p : ℕ → ℕ) (a b : ℕ) :
    swap_idx p a b = fun x => p (Equiv.swap a b x) := by
  funext x
  simp only [swap_idx, Equiv.swap_apply_def]
  split_ifs <;> rfl

theorem make_perm_spec (rnd : ℕ → ℕ) (N base : ℕ) :
    ∃ e : Equiv.Perm ℕ, make_perm rnd N base = ⇑e ∧ ∀ x, N ≤ x → e x = x := by
  have key : ∀ (l : List ℕ), (∀ j ∈ l, j < N) → ∀ e₀ : Equiv.Perm ℕ,
      (∀ x, N ≤ x → e₀ x = x) →
      ∃ e : Equiv.Perm ℕ,
        (l.foldl (fun p j => swap_idx p j (rnd (base + j) % N)) ⇑e₀) = ⇑e ∧
        ∀ x, N ≤ x → e x = x := by
    intro l
    induction l with
    | nil => intro _ e₀ he₀; exact ⟨e₀, rfl, he₀⟩
    | cons j js ih =>
      intro hmem e₀ he₀
      have hj : j < N := hmem j (List.mem_cons_self j js)
      have hbN : rnd (base + j) % N < N := Nat.mod_lt _ (by omega)
      have hstep : swap_idx (⇑e₀) j (rnd (base + j) % N) =
          ⇑((Equiv.swap j (rnd (base + j) % N)).trans e₀) := by
        rw [swap_idx_eq_comp]
        funext x
        simp [Equiv.trans_apply]
      rw [List.foldl_cons, hstep]
      refine ih (fun a ha => hmem a (List.mem_cons_of_mem _ ha)) _ ?_
      intro x hx
      have hsw : Equiv.swap j (rnd (base + j) % N) x = x :=
        Equiv.swap_apply_of_ne_of_ne (by omega) (by omega)
      simp only [Equiv.trans_apply, hsw]
      exact he₀ x hx
  have h0 : (id : ℕ → ℕ) = ⇑(Equiv.refl ℕ) := rfl
  have := key (List.range N) (fun j hj => List.mem_range.mp hj) (Equiv.refl ℕ)
    (fun x _ => rfl)
  rw [make_perm, h0]
  exact this

theorem perm_fix_maps_lt {N : ℕ} (e : Equiv.Perm ℕ) (hfix : ∀ x, N ≤ x → e x = x) :
    ∀ x, x < N → e x < N := by
  intro x hx
  by_contra hcon
  push_neg at hcon
  have h2 : e (e x) = e x := hfix _ hcon
  have h3 : e x = x := e.injective h2
  omega

theorem perm_fix_symm {N : ℕ} (e : Equiv.Perm ℕ) (hfix : ∀ x, N ≤ x → e x = x) :
    ∀ x, N ≤ x → e.symm x = x := by
  intro x hx
  have h1 : e (e.symm x) = x := e.apply_symm_apply x
  have h2 : e x = x := hfix x hx
  exact e.injective (by rw [h1, h2])

theorem div_bounds (r br : ℕ) (hbr : 0 < br) :
    br * (r / br) ≤ r ∧ r < br * (r / br + 1) := by
  have h1 := Nat.div_add_mod r br
  have h2 : r % br < br := Nat.mod_lt r hbr
  have h3 : br * (r / br + 1) = br * (r / br) + br := Nat.mul_succ _ _
  omega

theorem div_eq_of_bounds (r br q : ℕ) (h1 : br * q ≤ r) (h2 : r < br * (q + 1)) :
    r / br = q := by
  have hbr : 0 < br := by
    rcases Nat.eq_zero_or_pos br with rfl | h
    · omega
    · exact h
  have hb := div_bounds r br hbr
  rcases Nat.lt_trichotomy (r / br) q with hlt | heq | hgt
  · have hle : r / br + 1 ≤ q := hlt
    have := Nat.mul_le_mul_left br hle
    omega
  · exact heq
  · have hle : q + 1 ≤ r / br := hgt
    have := Nat.mul_le_mul_left br hle
    omega

theorem blocks_fold_char (N br : ℕ) (perm : ℕ → ℕ → ℕ) :
    ∀ (n : ℕ) (H₀ : ℕ → ℕ → ℕ) (r c : ℕ),
      ((List.range' 1 n).foldl
        (fun H i =>
          (List.range' (br * i) (br * (i + 1) - br * i)).foldl
            (fun H j =>
              (List.range N).foldl (fun H k => write H j k (H (j - br * i) (perm i k))) H)
            H)
        H₀) r c =
      if 1 ≤ r / br ∧ r / br < 1 + n ∧ c < N then
        H₀ (r - br * (r / br)) (perm (r / br) c)
      else H₀ r c := by
  intro n
  induction n with
  | zero =>
    intro H₀ r c
    rw [show List.range' 1 0 = ([] : List ℕ) from rfl, List.foldl_nil, if_neg]
    intro hcon
    omega
  | succ n ih =>
    intro H₀ r c
    have hsplit : List.range' 1 (n + 1) = List.range' 1 n ++ [1 + n] := by
      simpa using @List.range'_concat 1 1 n
    have hmul1 : br * (1 + n + 1) = br * (1 + n) + br := Nat.mul_succ _ _
    rw [hsplit, List.foldl_append, List.foldl_cons, List.foldl_nil]
    rw [block_copy_char br (1 + n) N (by omega) (perm (1 + n)) _
      (by
        intro a ha
        rw [List.mem_range'_1] at ha
        omega)]
    simp only [ih, List.mem_range'_1, List.mem_range]
    by_cases hA : (br * (1 + n) ≤ r ∧
        r < br * (1 + n) + (br * (1 + n + 1) - br * (1 + n))) ∧ c < N
    · have hbr : 0 < br := by omega
      have hdiv : r / br = 1 + n := div_eq_of_bounds r br (1 + n) (by omega) (by omega)
      have hrow : (r - br * (1 + n)) / br = 0 := Nat.div_eq_of_lt (by omega)
      have hcond1 : ¬(1 ≤ (r - br * (1 + n)) / br ∧
          (r - br * (1 + n)) / br < 1 + n ∧ perm (1 + n) c < N) := by
        rw [hrow]
        intro hcon
        omega
      rw [if_pos hA, if_neg hcond1, if_pos (by rw [hdiv]; exact ⟨by omega, by omega, hA.2⟩)]
      rw [hdiv]
    · rw [if_neg hA]
      by_cases hB : 1 ≤ r / br ∧ r / br < 1 + n ∧ c < N
      · rw [if_pos hB, if_pos ⟨hB.1, by omega, hB.2.2⟩]
      · rw [if_neg hB, if_neg]
        intro hcon
        have hbr : 0 < br := by
          rcases Nat.eq_zero_or_pos br with rfl | h
          · simp [Nat.div_zero] at hcon
          · exact h
        have heq : r / br = 1 + n := by omega
        have hb := div_bounds r br hbr
        rw [heq] at hb
        exact hA ⟨⟨hb.1, by omega⟩, hcon.2.2⟩

theorem block0_stage_char (N wc wr r c : ℕ) :
    block0_stage N wc wr r c =
      if r < N * wc / wr / wc ∧ r * wr ≤ c ∧ c < (r + 1) * wr then 1 else 0 := by
  have h := block0_fold_char wr (List.range (N * wc / wr / wc)) (fun _ _ => 0) r c
  rw [show block0_stage N wc wr r c =
    (if r ∈ List.range (N * wc / wr / wc) ∧ r * wr ≤ c ∧ c < (r + 1) * wr
     then 1 else (fun _ _ => (0 : ℕ)) r c) from h]
  simp only [List.mem_range]

theorem generate_Hmatrix_char (rnd : ℕ → ℕ) (N wc wr r c : ℕ) :
    generate_Hmatrix rnd N wc wr r c =
      if 1 ≤ r / (N * wc / wr / wc) ∧ r / (N * wc / wr / wc) < wc ∧ c < N then
        block0_stage N wc wr (r - (N * wc / wr / wc) * (r / (N * wc / wr / wc)))
          (make_perm rnd N ((r / (N * wc / wr / wc) - 1) * N) c)
      else block0_stage N wc wr r c := by
  have h := blocks_fold_char N (N * wc / wr / wc)
    (fun i => make_perm rnd N ((i - 1) * N)) (wc - 1) (block0_stage N wc wr) r c
  have h2 : generate_Hmatrix rnd N wc wr r c =
      (if 1 ≤ r / (N * wc / wr / wc) ∧ r / (N * wc / wr / wc) < 1 + (wc - 1) ∧ c < N then
        block0_stage N wc wr (r - (N * wc / wr / wc) * (r / (N * wc / wr / wc)))
          (make_perm rnd N ((r / (N * wc / wr / wc) - 1) * N) c)
       else block0_stage N wc wr r c) := h
  rw [h2]
  by_cases hc : 1 ≤ r / (N * wc / wr / wc) ∧ r / (N * wc / wr / wc) < wc ∧ c < N
  · have hcond : 1 ≤ r / (N * wc / wr / wc) ∧
        r / (N * wc / wr / wc) < 1 + (wc - 1) ∧ c < N :=
      ⟨hc.1, by clear h h2; omega, hc.2.2⟩
    rw [if_pos hcond, if_pos hc]
  · have hcond : ¬(1 ≤ r / (N * wc / wr / wc) ∧
        r / (N * wc / wr / wc) < 1 + (wc - 1) ∧ c < N) :=
      fun hcon => hc ⟨hcon.1, by clear h h2; omega, hcon.2.2⟩
    rw [if_neg hcond, if_neg hc]

theorem sum_range_mul (f : ℕ → ℕ) (a : ℕ) :
    ∀ b : ℕ, ∑ r in Finset.range (a * b), f r =
      ∑ q in Finset.range b, ∑ s in Finset.range a, f (a * q + s) := by
  intro b
  induction b with
  | zero => simp
  | succ m ih =>
    have h1 : a * (m + 1) = a * m + a := Nat.mul_succ _ _
    rw [h1, Finset.range_eq_Ico,
      ← Finset.sum_Ico_consecutive f (Nat.zero_le (a * m)) (Nat.le_add_right (a * m) a),
      ← Finset.range_eq_Ico, ih, Finset.sum_range_succ]
    congr 1
    rw [Finset.sum_Ico_eq_sum_range]
    have h2 : a * m + a - a * m = a := by omega
    rw [h2]

theorem block0_unique_sum (br wr y : ℕ) (hwr : 0 < wr) (hy : y < br * wr) :
    ∑ s in Finset.range br, (if s < br ∧ s * wr ≤ y ∧ y < (s + 1) * wr then 1 else 0) = 1 := by
  have hs0 : y / wr < br := by
    by_contra hcon
    push_neg at hcon
    have h1 := Nat.mul_le_mul_left wr hcon
    have h2 := (div_bounds y wr hwr).1
    have h3 : br * wr = wr * br := Nat.mul_comm _ _
    omega
  have hcongr : ∀ s ∈ Finset.range br,
      (if s < br ∧ s * wr ≤ y ∧ y < (s + 1) * wr then 1 else 0) =
        (if s = y / wr then 1 else (0 : ℕ)) := by
    intro s hs
    have hsbr : s < br := Finset.mem_range.mp hs
    by_cases heq : s = y / wr
    · subst heq
      have hb := div_bounds y wr hwr
      have hc1 : (y / wr) * wr = wr * (y / wr) := Nat.mul_comm _ _
      have hc2 : (y / wr + 1) * wr = wr * (y / wr + 1) := Nat.mul_comm _ _
      rw [if_pos ⟨hsbr, by omega, by omega⟩, if_pos rfl]
    · rw [if_neg, if_neg heq]
      intro hcon
      refine heq (Eq.symm (div_eq_of_bounds y wr s ?_ ?_))
      · rw [Nat.mul_comm]; exact hcon.2.1
      · rw [Nat.mul_comm]; exact hcon.2.2
  rw [Finset.sum_congr rfl hcongr,
    Finset.sum_ite_eq' (Finset.range br) (y / wr) (fun _ => 1),
    if_pos (Finset.mem_range.mpr hs0)]

theorem block0_row_sum (wr N s : ℕ) (hN : (s + 1) * wr ≤ N) :
    ∑ c in Finset.range N, (if s * wr ≤ c ∧ c < (s + 1) * wr then 1 else 0) = wr := by
  have hcongr : ∀ c ∈ Finset.range N,
      (if s * wr ≤ c ∧ c < (s + 1) * wr then 1 else 0) =
        (if c ∈ Finset.Ico (s * wr) ((s + 1) * wr) then 1 else (0 : ℕ)) := by
    intro c _
    exact if_congr Finset.mem_Ico.symm rfl rfl
  have hsub : Finset.Ico (s * wr) ((s + 1) * wr) ⊆ Finset.range N := by
    intro x hx
    rw [Finset.mem_Ico] at hx
    rw [Finset.mem_range]
    omega
  rw [Finset.sum_congr rfl hcongr, Finset.sum_ite_mem,
    Finset.inter_eq_right.mpr hsub, Finset.sum_const, smul_eq_mul, mul_one,
    Nat.card_Ico]
  have h5 : (s + 1) * wr = s * wr + wr := by ring
  omega

theorem generate_H_regular (rnd : ℕ → ℕ) (N wc wr M br : ℕ)
    (hM : M = N * wc / wr) (hbrdef : br = M / wc)
    (hwr : 0 < wr) (hwc : 0 < wc)
    (hbrwc : br * wc = M) (hbrwr : br * wr = N) :
    (∀ c < N, ∑ r in Finset.range M, generate_Hmatrix rnd N wc wr r c = wc) ∧
    (∀ r < M, ∑ c in Finset.range N, generate_Hmatrix rnd N wc wr r c = wr) := by
  have hcell : ∀ r c, generate_Hmatrix rnd N wc wr r c =
      if 1 ≤ r / br ∧ r / br < wc ∧ c < N then
        block0_stage N wc wr (r - br * (r / br)) (make_perm rnd N ((r / br - 1) * N) c)
      else block0_stage N wc wr r c := by
    intro r c
    rw [generate_Hmatrix_char, ← hM, ← hbrdef]
  have hb0 : ∀ r c, block0_stage N wc wr r c =
      if r < br ∧ r * wr ≤ c ∧ c < (r + 1) * wr then 1 else 0 := by
    intro r c
    rw [block0_stage_char, ← hM, ← hbrdef]
  constructor
  · -- column sums
    intro c hc
    have hcN : c < br * wr := by omega
    rw [← hbrwc, sum_range_mul]
    have hinner : ∀ q ∈ Finset.range wc,
        ∑ s in Finset.range br, generate_Hmatrix rnd N wc wr (br * q + s) c = 1 := by
      intro q hq
      have hqwc : q < wc := Finset.mem_range.mp hq
      have hmulq : br * (q + 1) = br * q + br := Nat.mul_succ br q
      by_cases hq0 : q = 0
      · subst hq0
        have hterm : ∀ s ∈ Finset.range br,
            generate_Hmatrix rnd N wc wr (br * 0 + s) c =
              (if s < br ∧ s * wr ≤ c ∧ c < (s + 1) * wr then 1 else 0) := by
          intro s hs
          have hsbr : s < br := Finset.mem_range.mp hs
          have hzero : br * 0 + s = s := by omega
          have hdiv : s / br = 0 := Nat.div_eq_of_lt hsbr
          have hcond : ¬(1 ≤ s / br ∧ s / br < wc ∧ c < N) := by
            rw [hdiv]
            omega
          rw [hzero, hcell, if_neg hcond, hb0]
        rw [Finset.sum_congr rfl hterm]
        exact block0_unique_sum br wr c hwr hcN
      · obtain ⟨e, hpe, hfix⟩ := make_perm_spec rnd N ((q - 1) * N)
        have hyN : make_perm rnd N ((q - 1) * N) c < N := by
          rw [hpe]
          exact perm_fix_maps_lt e hfix c hc
        have hterm : ∀ s ∈ Finset.range br,
            generate_Hmatrix rnd N wc wr (br * q + s) c =
              (if s < br ∧ s * wr ≤ make_perm rnd N ((q - 1) * N) c ∧
                  make_perm rnd N ((q - 1) * N) c < (s + 1) * wr then 1 else 0) := by
          intro s hs
          have hsbr : s < br := Finset.mem_range.mp hs
          have hdiv : (br * q + s) / br = q :=
            div_eq_of_bounds _ br q (Nat.le_add_right _ _) (by omega)
          have hsub : br * q + s - br * q = s := by omega
          have hq1 : 1 ≤ q := by omega
          rw [hcell, hdiv, if_pos ⟨hq1, hqwc, hc⟩, hsub, hb0]
        rw [Finset.sum_congr rfl hterm]
        exact block0_unique_sum br wr _ hwr (by omega)
    rw [Finset.sum_congr rfl hinner]
    simp
  · -- row sums
    intro r hr
    have hbr : 0 < br := by
      rcases Nat.eq_zero_or_pos br with h0 | h
      · rw [h0] at hbrwc; omega
      · exact h
    have hq : r / br < wc := by
      by_contra hcon
      push_neg at hcon
      have h1 := Nat.mul_le_mul_left br hcon
      have h2 := (div_bounds r br hbr).1
      omega
    have hs : r - br * (r / br) < br := by
      have h2 := div_bounds r br hbr
      have h3 : br * (r / br + 1) = br * (r / br) + br := Nat.mul_succ _ _
      omega
    by_cases hq0 : r / br = 0
    · have hrbr : r < br := by
        have h2 := div_bounds r br hbr
        rw [hq0] at h2
        omega
      have hterm : ∀ c ∈ Finset.range N,
          generate_Hmatrix rnd N wc wr r c =
            (if r * wr ≤ c ∧ c < (r + 1) * wr then 1 else 0) := by
        intro c hcm
        rw [hcell, if_neg (by rw [hq0]; omega), hb0]
        exact if_congr (and_iff_right hrbr) rfl rfl
      rw [Finset.sum_congr rfl hterm]
      refine block0_row_sum wr N r ?_
      have h4 : r + 1 ≤ br := by omega
      calc (r + 1) * wr ≤ br * wr := Nat.mul_le_mul_right wr h4
        _ = N := hbrwr
    · obtain ⟨e, hpe, hfix⟩ := make_perm_spec rnd N ((r / br - 1) * N)
      have hterm : ∀ c ∈ Finset.range N,
          generate_Hmatrix rnd N wc wr r c =
            (fun y => if (r - br * (r / br)) * wr ≤ y ∧
                y < (r - br * (r / br) + 1) * wr then 1 else (0 : ℕ)) (e c) := by
        intro c hcm
        have hcN : c < N := Finset.mem_range.mp hcm
        have hq1 : 1 ≤ r / br := Nat.pos_of_ne_zero hq0
        rw [hcell, if_pos ⟨hq1, hq, hcN⟩, hb0, hpe]
        exact if_congr (and_iff_right hs) rfl rfl
      rw [Finset.sum_congr rfl hterm]
      rw [Equiv.Perm.sum_comp e (Finset.range N)
        (fun y => if (r - br * (r / br)) * wr ≤ y ∧
            y < (r - br * (r / br) + 1) * wr then 1 else (0 : ℕ))
        (by
          intro a ha
          simp only [Set.mem_setOf_eq] at ha
          simp only [Finset.coe_range, Set.mem_Iio]
          by_contra hcon
          push_neg at hcon
          exact ha (hfix a hcon))]
      refine block0_row_sum wr N (r - br * (r / br)) ?_
      have h4 : r - br * (r / br) + 1 ≤ br := by omega
      calc (r - br * (r / br) + 1) * wr ≤ br * wr := Nat.mul_le_mul_right wr h4
        _ = N := hbrwr

/-- C2: for every `N`, `wc`, `wr` with `wc < wr`, `wr ∣ N*wc` and
`wc ∣ M` for `M = N*wc/wr` (integral block sizes), and for every stream of
random draws used by the shuffle, the matrix returned by `generate_Hmatrix`
has exactly `wc` ones in every column and exactly `wr` ones in every row. -/
theorem claim_C2 (rnd : ℕ → ℕ) (N wc wr : ℕ)
    (h1 : wc < wr) (h2 : wr ∣ N * wc) (h3 : wc ∣ N * wc / wr) :
    (∀ c < N,
      ∑ r in Finset.range (N * wc / wr), generate_Hmatrix rnd N wc wr r c = wc) ∧
    (∀ r < N * wc / wr,
      ∑ c in Finset.range N, generate_Hmatrix rnd N wc wr r c = wr) := by
  have hwr : 0 < wr := by omega
  rcases Nat.eq_zero_or_pos wc with rfl | hwc
  · constructor
    · intro c _
      simp
    · intro r hr
      simp at hr
  · have hMwr : N * wc / wr * wr = N * wc := Nat.div_mul_cancel h2
    have hbrwc : N * wc / wr / wc * wc = N * wc / wr := Nat.div_mul_cancel h3
    have hbrwr : N * wc / wr / wc * wr = N := by
      have hx : N * wc / wr / wc * wr * wc = N * wc := by
        calc N * wc / wr / wc * wr * wc = N * wc / wr / wc * wc * wr := by ring
          _ = N * wc / wr * wr := by rw [hbrwc]
          _ = N * wc := hMwr
      exact Nat.eq_of_mul_eq_mul_right hwc hx
    exact generate_H_regular rnd N wc wr (N * wc / wr) (N * wc / wr / wc)
      rfl rfl hwr hwc hbrwc hbrwr

theorem claim_C2_witness :
    ((0 : ℕ) < 2 ∧ (2 : ℕ) ∣ 4 * 1 ∧ (1 : ℕ) ∣ 4 * 1 / 2) ∧
    ((∀ c < 4,
      ∑ r in Finset.range (4 * 1 / 2),
        generate_Hmatrix (fun _ => 0) 4 1 2 r c = 1) ∧
    (∀ r < 4 * 1 / 2,
      ∑ c in Finset.range 4, generate_Hmatrix (fun _ => 0) 4 1 2 r c = 2)) :=
  ⟨⟨by decide, by decide, by decide⟩,
    claim_C2 (fun _ => 0) 4 1 2 (by decide) (by decide) (by decide)⟩

theorem spa_loop_spec (H : ℕ → ℕ → ℕ) (LLR : ℕ → ℝ) (M N : ℕ) :
    ∀ (fuel : ℕ) (s : SpaState),
      ∃ t, t ≤ fuel ∧
        spa_loop H LLR M N fuel s = ((spa_iter H LLR M N)^[t] s, t) ∧
        (∀ t', 1 ≤ t' → t' < t →
          parity_ok H M N ((spa_iter H LLR M N)^[t'] s).ecc = false) ∧
        ((1 ≤ t ∧ parity_ok H M N ((spa_iter H LLR M N)^[t] s).ecc = true) ∨
          t = fuel) := by
  intro fuel
  induction fuel with
  | zero =>
    intro s
    exact ⟨0, le_refl 0, rfl, fun t' h1 h2 => absurd h2 (by omega), Or.inr rfl⟩
  | succ n ih =>
    intro s
    by_cases hp : parity_ok H M N (spa_iter H LLR M N s).ecc = true
    · refine ⟨1, by omega, ?_, fun t' h1 h2 => absurd h1 (by omega),
        Or.inl ⟨le_refl 1, by simpa using hp⟩⟩
      simp [spa_loop, hp]
    · have hpf : parity_ok H M N (spa_iter H LLR M N s).ecc = false :=
        Bool.eq_false_iff.mpr hp
      obtain ⟨t, ht, heq, hmin, hterm⟩ := ih (spa_iter H LLR M N s)
      refine ⟨t + 1, by omega, ?_, ?_, ?_⟩
      · show spa_loop H LLR M N (n + 1) s = _
        rw [spa_loop]
        simp only [hpf, if_neg Bool.false_ne_true, heq]
        rw [Function.iterate_succ_apply]
      · intro t' h1 h2
        rcases Nat.eq_or_lt_of_le h1 with h1e | h1l
        · rw [← h1e]
          simpa using hpf
        · obtain ⟨t2, rfl⟩ : ∃ t2, t' = t2 + 1 := ⟨t' - 1, by omega⟩
          rw [Function.iterate_succ_apply]
          exact hmin t2 (by omega) (by omega)
      · rcases hterm with ⟨h1, h2⟩ | hfe
        · refine Or.inl ⟨by omega, ?_⟩
          rw [Function.iterate_succ_apply]
          exact h2
        · exact Or.inr (by omega)

/-- C3: `ldpc_decode_spa` always terminates (it is a total function of its
inputs), runs at most `max_iter` iterations of the message-passing loop
(`Int.toNat max_iter` of them, so none when `max_iter ≤ 0`), stops at the
first iteration whose tentative hard decision satisfies all `M` parity
checks, and otherwise returns after exactly `max_iter` iterations with the
last tentative decision. -/
theorem claim_C3 (LLR : ℕ → ℝ) (ecc0 : ℕ → ℕ) (H : ℕ → ℕ → ℕ) (M N K : ℕ)
    (max_iter : ℤ) :
    ∃ t : ℕ, t ≤ max_iter.toNat ∧
      (ldpc_decode_spa LLR ecc0 H M N K max_iter).iters = t ∧
      (ldpc_decode_spa LLR ecc0 H M N K max_iter).ecc =
        ((spa_iter H LLR M N)^[t] (spa_init ecc0)).ecc ∧
      (∀ t', 1 ≤ t' → t' < t →
        parity_ok H M N ((spa_iter H LLR M N)^[t'] (spa_init ecc0)).ecc = false) ∧
      ((1 ≤ t ∧
          parity_ok H M N ((spa_iter H LLR M N)^[t] (spa_init ecc0)).ecc = true) ∨
        t = max_iter.toNat) := by
  obtain ⟨t, ht, heq, hmin, hterm⟩ :=
    spa_loop_spec H LLR M N max_iter.toNat (spa_init ecc0)
  refine ⟨t, ht, ?_, ?_, hmin, hterm⟩
  · show (spa_loop H LLR M N max_iter.toNat (spa_init ecc0)).2 = t
    rw [heq]
  · show (spa_loop H LLR M N max_iter.toNat (spa_init ecc0)).1.ecc = _
    rw [heq]

/-- C4: the returned information bits are the last `K` positions of the
returned codeword: `inf[i] = ecc[(N-K) + i]` for `i < K`.  In the model the
extraction is performed once after the loop, so this holds on the converged
and on the exhausted path alike. -/
theorem claim_C4 (LLR : ℕ → ℝ) (ecc0 : ℕ → ℕ) (H : ℕ → ℕ → ℕ) (M N K : ℕ)
    (max_iter : ℤ) (hmx : 1 ≤ max_iter) (i : ℕ) (hi : i < K) :
    (ldpc_decode_spa LLR ecc0 H M N K max_iter).inf i =
      (ldpc_decode_spa LLR ecc0 H M N K max_iter).ecc ((N - K) + i) := by
  show (spa_loop H LLR M N max_iter.toNat (spa_init ecc0)).1.ecc (i + (N - K)) =
    (spa_loop H LLR M N max_iter.toNat (spa_init ecc0)).1.ecc ((N - K) + i)
  rw [Nat.add_comm]

theorem claim_C4_witness :
    (1 : ℤ) ≤ 1 ∧ (0 : ℕ) < 1 ∧
      (ldpc_decode_spa (fun _ => 0) (fun _ => 0) (fun _ _ => 0) 2 2 1 1).inf 0 =
        (ldpc_decode_spa (fun _ => 0) (fun _ => 0) (fun _ _ => 0) 2 2 1 1).ecc
          ((2 - 1) + 0) :=
  ⟨by decide, by decide,
    claim_C4 (fun _ => 0) (fun _ => 0) (fun _ _ => 0) 2 2 1 1 (by decide) 0 (by decide)⟩

/-- C9: with `max_iter ≤ 0` the loop body never runs: the codeword output
keeps the caller's prior buffer contents `ecc0`, the information output is
copied from those prior values, and the LLR input has no influence on
either output. -/
theorem claim_C9 (LLR : ℕ → ℝ) (ecc0 : ℕ → ℕ) (H : ℕ → ℕ → ℕ) (M N K : ℕ)
    (max_iter : ℤ) (hmx : max_iter ≤ 0) :
    (ldpc_decode_spa LLR ecc0 H M N K max_iter).ecc = ecc0 ∧
    (∀ i < K, (ldpc_decode_spa LLR ecc0 H M N K max_iter).inf i = ecc0 ((N - K) + i)) ∧
    (∀ LLR2 : ℕ → ℝ, ldpc_decode_spa LLR2 ecc0 H M N K max_iter =
      ldpc_decode_spa LLR ecc0 H M N K max_iter) := by
  have h0 : max_iter.toNat = 0 := Int.toNat_of_nonpos hmx
  refine ⟨?_, ?_, ?_⟩
  · show (spa_loop H LLR M N max_iter.toNat (spa_init ecc0)).1.ecc = ecc0
    rw [h0]
    rfl
  · intro i _
    show (spa_loop H LLR M N max_iter.toNat (spa_init ecc0)).1.ecc (i + (N - K)) = _
    rw [h0]
    show ecc0 (i + (N - K)) = ecc0 ((N - K) + i)
    rw [Nat.add_comm]
  · intro LLR2
    show (⟨_, _, _⟩ : SpaResult) = ⟨_, _, _⟩
    rw [h0]
    rfl

theorem claim_C9_witness :
    ((-3 : ℤ) ≤ 0) ∧
      ((ldpc_decode_spa (fun _ => 0) (fun n => n + 5) (fun _ _ => 1) 2 4 2 (-3)).ecc =
          (fun n => n + 5) ∧
        (∀ i < 2,
          (ldpc_decode_spa (fun _ => 0) (fun n => n + 5) (fun _ _ => 1) 2 4 2 (-3)).inf i =
            (fun n => n + 5) ((4 - 2) + i)) ∧
        (∀ LLR2 : ℕ → ℝ,
          ldpc_decode_spa LLR2 (fun n => n + 5) (fun _ _ => 1) 2 4 2 (-3) =
            ldpc_decode_spa (fun _ => 0) (fun n => n + 5) (fun _ _ => 1) 2 4 2 (-3))) :=
  ⟨by decide,
    claim_C9 (fun _ => 0) (fun n => n + 5) (fun _ _ => 1) 2 4 2 (-3) (by decide)⟩

theorem foldl_writeR_const {A2 : Type} (idxf : A2 → ℕ) (val : A2 → ℝ) (n : ℕ) (w : ℝ) :
    ∀ (l : List A2) (A : ℕ → ℝ),
      (∀ x ∈ l, idxf x = n → val x = w) →
      ((∃ x ∈ l, idxf x = n) ∨ A n = w) →
      (l.foldl (fun A x => writeR A (idxf x) (val x)) A) n = w := by
  intro l
  induction l with
  | nil =>
    intro A _ hex
    rcases hex with ⟨x, hx, _⟩ | hA
    · exact absurd hx (List.not_mem_nil x)
    · exact hA
  | cons x xs ih =>
    intro A hval hex
    rw [List.foldl_cons]
    refine ih _ (fun y hy hidx => hval y (List.mem_cons_of_mem x hy) hidx) ?_
    by_cases hxs : ∃ y ∈ xs, idxf y = n
    · exact Or.inl hxs
    · refine Or.inr ?_
      by_cases hxn : idxf x = n
      · rw [writeR, if_pos hxn.symm]
        exact hval x (List.mem_cons_self x xs) hxn
      · rw [writeR, if_neg (fun h => hxn h.symm)]
        rcases hex with ⟨y, hy, hidx⟩ | hA
        · rcases List.mem_cons.mp hy with rfl | hmem
          · exact absurd hidx hxn
          · exact absurd ⟨y, hmem, hidx⟩ hxs
        · exact hA

theorem foldl_foldl_flatMap {A2 B S : Type} (f : S → B → S) (g : A2 → List B) :
    ∀ (l : List A2) (a : S),
      l.foldl (fun a x => (g x).foldl f a) a = (l.flatMap g).foldl f a := by
  intro l
  induction l with
  | nil => intro a; rfl
  | cons x xs ih =>
    intro a
    rw [List.foldl_cons, List.flatMap_cons, List.foldl_append, ih]

theorem pyx_sums_foldl (pyx : ℕ → ℕ → ℝ) (i b : ℕ) :
    ∀ (l : List ℕ) (a : ℝ × ℝ),
      l.foldl
        (fun ps k =>
          if symbol_bits k b ≠ 0 then (ps.1 + pyx k i, ps.2)
          else (ps.1, ps.2 + pyx k i)) a =
      (a.1 + ((l.filter (fun k => symbol_bits k b != 0)).map (fun k => pyx k i)).sum,
       a.2 + ((l.filter (fun k => symbol_bits k b == 0)).map (fun k => pyx k i)).sum) := by
  intro l
  induction l with
  | nil => intro a; simp
  | cons k ks ih =>
    intro a
    rw [List.foldl_cons]
    by_cases hbit : symbol_bits k b ≠ 0
    · rw [if_pos hbit, ih]
      have hf1 : (symbol_bits k b != 0) = true := by simpa using hbit
      have hf0 : (symbol_bits k b == 0) = false := by simpa using hbit
      refine Prod.ext ?_ ?_ <;>
        simp [List.filter_cons, hf1, hf0] <;> ring
    · rw [if_neg hbit, ih]
      push_neg at hbit
      have hf1 : (symbol_bits k b != 0) = false := by simpa using hbit
      have hf0 : (symbol_bits k b == 0) = true := by simpa using hbit
      refine Prod.ext ?_ ?_ <;>
        simp [List.filter_cons, hf1, hf0] <;> ring

theorem filter_map_sum {M : Type} [AddCommMonoid M] (p : ℕ → Bool) (f : ℕ → M) :
    ∀ l : List ℕ,
      ((l.filter p).map f).sum = (l.map (fun x => if p x then f x else 0)).sum := by
  intro l
  induction l with
  | nil => rfl
  | cons x xs ih =>
    rw [List.filter_cons, List.map_cons, List.sum_cons]
    by_cases hp : p x
    · rw [if_pos hp, List.map_cons, List.sum_cons, ih, if_pos hp]
    · rw [if_neg hp, ih, if_neg hp, zero_add]

theorem bit_test_iff (k b : ℕ) : ((symbol_bits k b != 0) = true) ↔ (k >>> b) &&& 1 = 1 := by
  rw [bne_iff_ne]
  have h := Nat.and_one_is_mod (k >>> b)
  show ¬(symbol_bits k b = 0) ↔ _
  rw [symbol_bits, h]
  omega

theorem bit_test_zero_iff (k b : ℕ) : ((symbol_bits k b == 0) = true) ↔ (k >>> b) &&& 1 = 0 := by
  rw [beq_iff_eq]
  rw [symbol_bits]

theorem pyx_sums_eq (pyx : ℕ → ℕ → ℝ) (E i b : ℕ) :
    pyx_sums pyx E i b =
      (∑ k in (Finset.range E).filter (fun k => (k >>> b) &&& 1 = 1), pyx k i,
       ∑ k in (Finset.range E).filter (fun k => (k >>> b) &&& 1 = 0), pyx k i) := by
  rw [pyx_sums, pyx_sums_foldl]
  refine Prod.ext ?_ ?_
  · show (0 : ℝ) + _ =
      ∑ k in (Finset.range E).filter (fun k => (k >>> b) &&& 1 = 1), pyx k i
    rw [zero_add, filter_map_sum, sum_map_range, Finset.sum_filter]
    apply Finset.sum_congr rfl
    intro k _
    exact if_congr (bit_test_iff k b) rfl rfl
  · show (0 : ℝ) + _ =
      ∑ k in (Finset.range E).filter (fun k => (k >>> b) &&& 1 = 0), pyx k i
    rw [zero_add, filter_map_sum, sum_map_range, Finset.sum_filter]
    apply Finset.sum_congr rfl
    intro k _
    exact if_congr (bit_test_zero_iff k b) rfl rfl

theorem compute_llr_cell_eq (pyx : ℕ → ℕ → ℝ) (E N : ℕ) (LLR0 : ℕ → ℝ)
    (m i b : ℕ) (hE : E = 2 ^ m) (hi : i < N) (hb : b < m) :
    compute_llr_from_pyx pyx E N LLR0 (b + i * m) = llr_cell pyx E i b := by
  have hm : 0 < m := by omega
  have hlog : Nat.log2 E = m := by
    rw [hE, Nat.log2_eq_log_two, Nat.log_pow Nat.one_lt_two]
  have h1 : compute_llr_from_pyx pyx E N LLR0 =
      ((List.range N).flatMap (fun i2 => (List.range m).map (fun b2 => (i2, b2)))).foldl
        (fun (A : ℕ → ℝ) (p : ℕ × ℕ) => writeR A (p.2 + p.1 * m) (llr_cell pyx E p.1 p.2))
        LLR0 := by
    rw [compute_llr_from_pyx]
    rw [← foldl_foldl_flatMap]
    refine List.foldl_ext _ _ LLR0 ?_
    intro A i2 _
    rw [List.foldl_map, hlog]
  rw [h1]
  refine foldl_writeR_const (fun p : ℕ × ℕ => p.2 + p.1 * m)
    (fun p : ℕ × ℕ => llr_cell pyx E p.1 p.2) (b + i * m) (llr_cell pyx E i b) _ LLR0 ?_ ?_
  · intro p hp hidx
    rcases List.mem_flatMap.mp hp with ⟨i2, hi2, hpm⟩
    rcases List.mem_map.mp hpm with ⟨b2, hb2, rfl⟩
    have hb2m : b2 < m := List.mem_range.mp hb2
    have e1 : (b2 + i2 * m) / m = i2 := by
      rw [Nat.add_mul_div_right _ _ hm, Nat.div_eq_of_lt hb2m, Nat.zero_add]
    have e2 : (b + i * m) / m = i := by
      rw [Nat.add_mul_div_right _ _ hm, Nat.div_eq_of_lt hb, Nat.zero_add]
    have hidx2 : b2 + i2 * m = b + i * m := hidx
    have hii : i2 = i := by
      rw [← e1, hidx2, e2]
    subst hii
    have hbb : b2 = b := by omega
    subst hbb
    rfl
  · refine Or.inl ⟨(i, b), ?_, rfl⟩
    exact List.mem_flatMap.mpr
      ⟨i, List.mem_range.mpr hi, List.mem_map.mpr ⟨b, List.mem_range.mpr hb, rfl⟩⟩

/-- C7 is corrected: the specification's phrase "each sum floored at the tiny
positive epsilon 1e-300" (i.e. `max` with 1e-300) does not describe the code,
which replaces a sum by 1e-300 only when the sum is `≤ 0` and keeps positive
sums smaller than 1e-300 as they are.  At `E = 2`, `N = 1`,
`pyx = [1e-301, 2e-301]` the code computes `log 2` while the floored reading
computes `log 1 = 0`. -/
theorem claim_C7_counterexample :
    compute_llr_from_pyx (fun k _ => if k = 1 then 2e-301 else 1e-301) 2 1
        (fun _ => 0) 0 ≠
      llr_spec_floored (fun k _ => if k = 1 then 2e-301 else 1e-301) 2 0 0 := by
  have hcell := compute_llr_cell_eq (fun k _ => if k = 1 then 2e-301 else 1e-301)
    2 1 (fun _ => 0) 1 0 0 (by norm_num) (by norm_num) (by norm_num)
  have hzero : (0 : ℕ) + 0 * 1 = 0 := by norm_num
  rw [hzero] at hcell
  rw [hcell, llr_cell, pyx_sums_eq]
  have hfil1 : (Finset.range 2).filter (fun k => (k >>> 0) &&& 1 = 1) = {1} := by decide
  have hfil0 : (Finset.range 2).filter (fun k => (k >>> 0) &&& 1 = 0) = {0} := by decide
  rw [hfil1, hfil0, Finset.sum_singleton, Finset.sum_singleton]
  norm_num
  rw [llr_spec_floored, hfil1, hfil0, Finset.sum_singleton, Finset.sum_singleton]
  norm_num

/-- C7 (amended): for `E = 2^m` and any likelihood array, the mapper writes
`LLR[b + i*m] = log(p1/p0)` where `p1` (resp. `p0`) sums `pyx[k][i]` over
symbols whose bit `b` is 1 (resp. 0), each sum replaced by the tiny positive
constant 1e-300 when it is `≤ 0` (in particular when it is exactly zero), so
the output is finite when a sum is zero; positive sums below 1e-300 are used
unchanged (they are not floored up to 1e-300). -/
theorem claim_C7 (pyx : ℕ → ℕ → ℝ) (E N : ℕ) (LLR0 : ℕ → ℝ) (m i b : ℕ)
    (hE : E = 2 ^ m) (hi : i < N) (hb : b < m) :
    compute_llr_from_pyx pyx E N LLR0 (b + i * m) =
      Real.log
        ((if (∑ k in (Finset.range E).filter (fun k => (k >>> b) &&& 1 = 1), pyx k i) ≤ 0
          then 1e-300
          else ∑ k in (Finset.range E).filter (fun k => (k >>> b) &&& 1 = 1), pyx k i) /
         (if (∑ k in (Finset.range E).filter (fun k => (k >>> b) &&& 1 = 0), pyx k i) ≤ 0
          then 1e-300
          else ∑ k in (Finset.range E).filter (fun k => (k >>> b) &&& 1 = 0), pyx k i)) := by
  rw [compute_llr_cell_eq pyx E N LLR0 m i b hE hi hb, llr_cell, pyx_sums_eq]

theorem claim_C7_witness :
    ((2 : ℕ) = 2 ^ 1 ∧ (0 : ℕ) < 1 ∧ (0 : ℕ) < 1) ∧
      compute_llr_from_pyx (fun _ _ => 1) 2 1 (fun _ => 0) (0 + 0 * 1) =
        Real.log
          ((if (∑ k in (Finset.range 2).filter (fun k => (k >>> 0) &&& 1 = 1),
                  (1 : ℝ)) ≤ 0
            then 1e-300
            else ∑ k in (Finset.range 2).filter (fun k => (k >>> 0) &&& 1 = 1),
                  (1 : ℝ)) /
           (if (∑ k in (Finset.range 2).filter (fun k => (k >>> 0) &&& 1 = 0),
                  (1 : ℝ)) ≤ 0
            then 1e-300
            else ∑ k in (Finset.range 2).filter (fun k => (k >>> 0) &&& 1 = 0),
                  (1 : ℝ))) :=
  ⟨⟨by decide, by decide, by decide⟩,
    claim_C7 (fun _ _ => 1) 2 1 (fun _ => 0) 1 0 0 (by decide) (by decide) (by decide)⟩

/-! ### C5: `generate_Gmatrix` only permutes the columns of `H` -/

theorem find_pivot_col_bounds {X : ℕ → ℕ → ℕ} {row lo hi k : ℕ}
    (h : find_pivot_col X row lo hi = some k) : lo ≤ k ∧ k < lo + (hi - lo) := by
  have hmem := List.mem_of_find?_eq_some h
  rw [List.mem_reverse, List.mem_range'] at hmem
  obtain ⟨i, hi1, hi2⟩ := hmem
  omega

theorem p2_step_H (M N : ℕ) (s : GState) (j : ℕ) :
    (p2_step M N s j).H = s.H ∨
    ∃ k, find_pivot_col s.X (j - M) M (M + N) = some k ∧
      (p2_step M N s j).H = hcol_swap s.H M (k - M) (j - M) := by
  by_cases h0 : s.X (j - M) j = 0
  · cases hr : find_pivot_row s.X j (j - M + 1) N with
    | some i => left; simp [p2_step, h0, hr]
    | none =>
      cases hc : find_pivot_col s.X (j - M) M (M + N) with
      | some k =>
        right
        refine ⟨k, rfl, ?_⟩
        simp [p2_step, h0, hr, hc]
      | none => left; simp [p2_step, h0, hr, hc]
  · left; simp [p2_step, h0]

theorem phase2_H_perm (M N : ℕ) (s : GState) :
    ∀ n, M + n ≤ N →
    ∃ σ : Equiv.Perm ℕ, (∀ c, N ≤ c → σ c = c) ∧
      ∀ r c, r < M → (phase2 M N n s).H r c = s.H r (σ c) := by
  intro n
  induction n with
  | zero => exact fun _ => ⟨Equiv.refl ℕ, fun _ _ => rfl, fun _ _ _ => rfl⟩
  | succ n ih =>
    intro hn
    obtain ⟨σ, hfix, hH⟩ := ih (by omega)
    have hstep : phase2 M N (n + 1) s = p2_step M N (phase2 M N n s) (2 * M + n) := rfl
    rcases p2_step_H M N (phase2 M N n s) (2 * M + n) with hcase | ⟨k, hk, hcase⟩
    · exact ⟨σ, hfix, fun r c hr => by rw [hstep, hcase]; exact hH r c hr⟩
    · have hkb : M ≤ k ∧ k < M + (M + N - M) := find_pivot_col_bounds hk
      have ha : k - M < N := by omega
      have hb : 2 * M + n - M = M + n := by omega
      have hbN : M + n < N := by omega
      refine ⟨(Equiv.swap (k - M) (M + n)).trans σ, ?_, ?_⟩
      · intro c hc
        have h1 : Equiv.swap (k - M) (M + n) c = c :=
          Equiv.swap_apply_of_ne_of_ne (by omega) (by omega)
        simp only [Equiv.trans_apply, h1]
        exact hfix c hc
      · intro r c hr
        rw [hstep, hcase, hb]
        simp only [Equiv.trans_apply]
        unfold hcol_swap
        by_cases hca : c = k - M
        · have hcond : r < M ∧ c = k - M := ⟨hr, hca⟩
          rw [if_pos hcond, hca, Equiv.swap_apply_left]
          exact hH r (M + n) hr
        · by_cases hcb : c = M + n
          · have hcond1 : ¬(r < M ∧ c = k - M) := fun h => hca h.2
            have hcond2 : r < M ∧ c = M + n := ⟨hr, hcb⟩
            rw [if_neg hcond1, if_pos hcond2, hcb, Equiv.swap_apply_right]
            exact hH r (k - M) hr
          · have hcond1 : ¬(r < M ∧ c = k - M) := fun h => hca h.2
            have hcond2 : ¬(r < M ∧ c = M + n) := fun h => hcb h.2
            rw [if_neg hcond1, if_neg hcond2,
              Equiv.swap_apply_of_ne_of_ne hca hcb]
            exact hH r c hr

/-- **C5.** `generate_Gmatrix` modifies `H` only by swapping whole columns
(the phase-2 mirror swaps); consequently the `H` it leaves behind is a column
permutation of the `H` passed in: there is a permutation `σ` of the column
indices, fixing every index `≥ N`, with `H_out[r][c] = H_in[r][σ c]` for every
row `r < M` of the matrix. -/
theorem claim_C5 (H : ℕ → ℕ → ℕ) (N wc wr : ℕ) :
    ∃ σ : Equiv.Perm ℕ, (∀ c, N ≤ c → σ c = c) ∧
      ∀ r c, r < N * wc / wr →
        (generate_Gmatrix H N wc wr).2 r c = H r (σ c) := by
  by_cases hMN : N * wc / wr ≤ N
  · obtain ⟨σ, hfix, hperm⟩ :=
      phase2_H_perm (N * wc / wr) N
        ⟨phase1 (N * wc / wr) N (N * wc / wr) (build_X H (N * wc / wr) N), H⟩
        (N - N * wc / wr) (by omega)
    exact ⟨σ, hfix, fun r c hr => hperm r c hr⟩
  · have hz : N - N * wc / wr = 0 := by omega
    refine ⟨Equiv.refl ℕ, fun _ _ => rfl, fun r c hr => ?_⟩
    show (phase2 (N * wc / wr) N (N - N * wc / wr) _).H r c = H r c
    rw [hz]
    rfl

/-! ### C1 groundwork: closed form of `eliminate`, swap and delta-sum helpers -/

theorem elim_fold_char (X0 : ℕ → ℕ → ℕ) (MN pr jcol : ℕ) :
    ∀ n r c,
      (List.range n).foldl (elim_step MN pr jcol) X0 r c =
        if r < n ∧ r ≠ pr ∧ X0 r jcol = 1 ∧ c < MN then X0 r c ^^^ X0 pr c
        else X0 r c := by
  intro n
  induction n with
  | zero =>
    intro r c
    rw [List.range_zero, List.foldl_nil, if_neg]
    exact fun h => Nat.not_lt_zero r h.1
  | succ n ih =>
    intro r c
    rw [List.range_succ, List.foldl_append, List.foldl_cons, List.foldl_nil]
    have hnj : (List.range n).foldl (elim_step MN pr jcol) X0 n jcol = X0 n jcol := by
      rw [ih, if_neg]
      exact fun h => lt_irrefl n h.1
    have hprc : ∀ c', (List.range n).foldl (elim_step MN pr jcol) X0 pr c' = X0 pr c' := by
      intro c'
      rw [ih, if_neg]
      exact fun h => h.2.1 rfl
    generalize hF : (List.range n).foldl (elim_step MN pr jcol) X0 = F at ih hnj hprc ⊢
    unfold elim_step
    by_cases hcond : n ≠ pr ∧ F n jcol = 1
    · rw [if_pos hcond]
      show (if r = n ∧ c < MN then F r c ^^^ F pr c else F r c) = _
      have hx0 : X0 n jcol = 1 := by rw [← hnj]; exact hcond.2
      by_cases hr : r = n ∧ c < MN
      · rw [if_pos hr]
        obtain ⟨hrn, hcMN⟩ := hr
        subst hrn
        rw [hprc, ih, if_neg (fun h => lt_irrefl r h.1),
          if_pos ⟨Nat.lt_succ_self r, hcond.1, hx0, hcMN⟩]
      · rw [if_neg hr, ih]
        by_cases hc2 : r < n ∧ r ≠ pr ∧ X0 r jcol = 1 ∧ c < MN
        · rw [if_pos hc2, if_pos ⟨Nat.lt_succ_of_lt hc2.1, hc2.2⟩]
        · rw [if_neg hc2, if_neg]
          intro h
          rcases Nat.lt_succ_iff_lt_or_eq.mp h.1 with h' | h'
          · exact hc2 ⟨h', h.2⟩
          · exact hr ⟨h', h.2.2.2⟩
    · rw [if_neg hcond, ih]
      by_cases hc2 : r < n ∧ r ≠ pr ∧ X0 r jcol = 1 ∧ c < MN
      · rw [if_pos hc2, if_pos ⟨Nat.lt_succ_of_lt hc2.1, hc2.2⟩]
      · rw [if_neg hc2, if_neg]
        intro h
        rcases Nat.lt_succ_iff_lt_or_eq.mp h.1 with h' | h'
        · exact hc2 ⟨h', h.2⟩
        · subst h'
          rw [← hnj] at h
          exact hcond ⟨h.2.1, h.2.2.1⟩

theorem eliminate_char (X : ℕ → ℕ → ℕ) (MN N pr jcol r c : ℕ) :
    eliminate X MN N pr jcol r c =
      if r < N ∧ r ≠ pr ∧ X r jcol = 1 ∧ c < MN then X r c ^^^ X pr c
      else X r c :=
  elim_fold_char X MN pr jcol N r c

theorem cast_xor01 {a b : ℕ} (ha : is01 a) (hb : is01 b) :
    ((a ^^^ b : ℕ) : ZMod 2) = (a : ZMod 2) + (b : ZMod 2) := by
  rcases ha with rfl | rfl <;> rcases hb with rfl | rfl <;> decide

theorem zmod2_add_self (a : ZMod 2) : a + a = 0 := by
  fin_cases a <;> decide

theorem swap_lt {a b i n : ℕ} (ha : a < n) (hb : b < n) (hi : i < n) :
    Equiv.swap a b i < n := by
  rcases eq_or_ne i a with rfl | h1
  · rwa [Equiv.swap_apply_left]
  · rcases eq_or_ne i b with rfl | h2
    · rwa [Equiv.swap_apply_right]
    · rwa [Equiv.swap_apply_of_ne_of_ne h1 h2]

theorem swap_le {a b i l : ℕ} (ha : l ≤ a) (hb : l ≤ b) (hi : l ≤ i) :
    l ≤ Equiv.swap a b i := by
  rcases eq_or_ne i a with rfl | h1
  · rwa [Equiv.swap_apply_left]
  · rcases eq_or_ne i b with rfl | h2
    · rwa [Equiv.swap_apply_right]
    · rwa [Equiv.swap_apply_of_ne_of_ne h1 h2]

theorem swap_shift (M k j s : ℕ) (hk : M ≤ k) (hj : M ≤ j) :
    Equiv.swap k j (M + s) = M + Equiv.swap (k - M) (j - M) s := by
  rcases eq_or_ne s (k - M) with rfl | h1
  · rw [show M + (k - M) = k from by omega, Equiv.swap_apply_left,
      Equiv.swap_apply_left]
    omega
  · rcases eq_or_ne s (j - M) with rfl | h2
    · rw [show M + (j - M) = j from by omega, Equiv.swap_apply_right,
        Equiv.swap_apply_right]
      omega
    · rw [Equiv.swap_apply_of_ne_of_ne (by omega) (by omega),
        Equiv.swap_apply_of_ne_of_ne h1 h2]

theorem sum_mul_delta (n v : ℕ) (f : ℕ → ZMod 2) (hv : v < n) :
    ∑ t in Finset.range n, f t * (if t = v then 1 else 0) = f v := by
  simp [mul_ite, Finset.sum_ite_eq', Finset.mem_range, hv]

theorem sum_mul_delta' (n v : ℕ) (f : ℕ → ZMod 2) (hv : v < n) :
    ∑ t in Finset.range n, f t * (if v = t then 1 else 0) = f v := by
  simp [mul_ite, Finset.sum_ite_eq, Finset.mem_range, hv]

theorem sum_delta_mul (n v : ℕ) (f : ℕ → ZMod 2) (hv : v < n) :
    ∑ t in Finset.range n, (if t = v then 1 else 0) * f t = f v := by
  simp [ite_mul, Finset.sum_ite_eq', Finset.mem_range, hv]

theorem sum_swap_reindex (n a b : ℕ) (ha : a < n) (hb : b < n) (f : ℕ → ZMod 2) :
    ∑ t in Finset.range n, f (Equiv.swap a b t) = ∑ t in Finset.range n, f t := by
  apply Equiv.Perm.sum_comp
  intro x hx
  simp only [Set.mem_setOf_eq] at hx
  rcases eq_or_ne x a with rfl | h1
  · simpa using ha
  · rcases eq_or_ne x b with rfl | h2
    · simpa using hb
    · exact absurd (Equiv.swap_apply_of_ne_of_ne h1 h2) hx

theorem row_swap_apply (X : ℕ → ℕ → ℕ) (a b r c : ℕ) :
    row_swap X a b r c = X (Equiv.swap a b r) c := by
  unfold row_swap
  rcases eq_or_ne r a with rfl | hra
  · rw [if_pos rfl, Equiv.swap_apply_left]
  · rw [if_neg hra]
    rcases eq_or_ne r b with rfl | hrb
    · rw [if_pos rfl, Equiv.swap_apply_right]
    · rw [if_neg hrb, Equiv.swap_apply_of_ne_of_ne hra hrb]

theorem col_swap_apply (X : ℕ → ℕ → ℕ) (N a b r c : ℕ) (hr : r < N) :
    col_swap X N a b r c = X r (Equiv.swap a b c) := by
  unfold col_swap
  rcases eq_or_ne c a with rfl | hca
  · rw [if_pos ⟨hr, rfl⟩, Equiv.swap_apply_left]
  · rw [if_neg (fun h => hca h.2)]
    rcases eq_or_ne c b with rfl | hcb
    · rw [if_pos ⟨hr, rfl⟩, Equiv.swap_apply_right]
    · rw [if_neg (fun h => hcb h.2), Equiv.swap_apply_of_ne_of_ne hca hcb]

theorem hcol_swap_apply (H : ℕ → ℕ → ℕ) (M a b r c : ℕ) (hr : r < M) :
    hcol_swap H M a b r c = H r (Equiv.swap a b c) := by
  unfold hcol_swap
  rcases eq_or_ne c a with rfl | hca
  · rw [if_pos ⟨hr, rfl⟩, Equiv.swap_apply_left]
  · rw [if_neg (fun h => hca h.2)]
    rcases eq_or_ne c b with rfl | hcb
    · rw [if_pos ⟨hr, rfl⟩, Equiv.swap_apply_right]
    · rw [if_neg (fun h => hcb h.2), Equiv.swap_apply_of_ne_of_ne hca hcb]

/-! ### C1: invariant preservation under `eliminate` -/

theorem eliminate_cast (M N pr jcol : ℕ) (X : ℕ → ℕ → ℕ) (hpr : pr < N)
    (h01 : Rng01 N (M + N) X) (i t : ℕ) (hi : i < N) (ht : t < M + N) :
    ((eliminate X (M + N) N pr jcol i t : ℕ) : ZMod 2) =
      (X i t : ZMod 2) +
        (if i ≠ pr ∧ X i jcol = 1 then 1 else 0) * (X pr t : ZMod 2) := by
  rw [eliminate_char]
  by_cases hc : i ≠ pr ∧ X i jcol = 1
  · rw [if_pos ⟨hi, hc.1, hc.2, ht⟩, if_pos hc, one_mul,
      cast_xor01 (h01 i t hi ht) (h01 pr t hpr ht)]
  · rw [if_neg (fun h => hc ⟨h.2.1, h.2.2.1⟩), if_neg hc, zero_mul, add_zero]

theorem eliminate_Rng01 (M N pr jcol : ℕ) (X : ℕ → ℕ → ℕ) (hpr : pr < N)
    (h01 : Rng01 N (M + N) X) : Rng01 N (M + N) (eliminate X (M + N) N pr jcol) := by
  intro i c hi hc
  rw [eliminate_char]
  split
  · exact is01_xor (h01 i c hi hc) (h01 pr c hpr hc)
  · exact h01 i c hi hc

theorem eliminate_BInv (M N pr jcol : ℕ) (X : ℕ → ℕ → ℕ) (Cg : ℕ → ℕ → ZMod 2)
    (hpr : pr < N) (h01 : Rng01 N (M + N) X) (hB : BInv M N Cg X) :
    BInv M N Cg (eliminate X (M + N) N pr jcol) := by
  intro m i hm hi
  have hre : ∀ t ∈ Finset.range (M + N),
      Cg m t * ((eliminate X (M + N) N pr jcol i t : ℕ) : ZMod 2) =
        Cg m t * (X i t : ZMod 2) +
          (if i ≠ pr ∧ X i jcol = 1 then 1 else 0) *
            (Cg m t * (X pr t : ZMod 2)) := by
    intro t htm
    rw [eliminate_cast M N pr jcol X hpr h01 i t hi (Finset.mem_range.mp htm)]
    ring
  rw [Finset.sum_congr rfl hre, Finset.sum_add_distrib, hB m i hm hi, zero_add,
    ← Finset.mul_sum, hB m pr hm hpr, mul_zero]

theorem eliminate_col_unchanged (X : ℕ → ℕ → ℕ) (MN N pr jcol v : ℕ)
    (h : X pr v = 0) : ∀ r, eliminate X MN N pr jcol r v = X r v := by
  intro r
  rw [eliminate_char]
  split
  · rw [h, Nat.xor_zero]
  · rfl

theorem eliminate_pivot_col (X : ℕ → ℕ → ℕ) (MN N pr jcol : ℕ) (hj : jcol < MN)
    (hpiv : X pr jcol = 1) (h01 : ∀ i, i < N → is01 (X i jcol)) :
    ∀ i, i < N → eliminate X MN N pr jcol i jcol = if i = pr then 1 else 0 := by
  intro i hi
  rw [eliminate_char]
  rcases eq_or_ne i pr with rfl | hip
  · rw [if_neg (fun h => h.2.1 rfl), if_pos rfl, hpiv]
  · rcases h01 i hi with h0 | h1
    · rw [if_neg, h0, if_neg hip]
      rintro ⟨-, -, hc, -⟩
      rw [h0] at hc
      exact absurd hc (by decide)
    · rw [if_pos ⟨hi, hip, h1, hj⟩, h1, hpiv, if_neg hip]
      decide

theorem sum_mul_chiS (M N pr jcol : ℕ) (X : ℕ → ℕ → ℕ) (Y : ℕ → ℕ → ZMod 2)
    (hY : XisInv M N X Y) (r' : ℕ) (hr' : r' < N) :
    ∑ t in Finset.range (M + N), (X r' t : ZMod 2) * chiS N pr jcol X Y t =
      if r' ≠ pr ∧ X r' jcol = 1 then 1 else 0 := by
  calc ∑ t in Finset.range (M + N), (X r' t : ZMod 2) * chiS N pr jcol X Y t
      = ∑ t in Finset.range (M + N), ∑ i' in Finset.range N,
          (if i' ≠ pr ∧ X i' jcol = 1 then 1 else 0) *
            ((X r' t : ZMod 2) * Y t i') := by
        refine Finset.sum_congr rfl (fun t _ => ?_)
        simp only [chiS]
        rw [Finset.mul_sum]
        exact Finset.sum_congr rfl (fun i' _ => by ring)
    _ = ∑ i' in Finset.range N,
          (if i' ≠ pr ∧ X i' jcol = 1 then 1 else 0) *
            ∑ t in Finset.range (M + N), (X r' t : ZMod 2) * Y t i' := by
        rw [Finset.sum_comm]
        exact Finset.sum_congr rfl (fun i' _ => by rw [Finset.mul_sum])
    _ = ∑ i' in Finset.range N,
          (if i' ≠ pr ∧ X i' jcol = 1 then 1 else 0) *
            (if r' = i' then 1 else 0) := by
        refine Finset.sum_congr rfl (fun i' hmem => ?_)
        rw [hY r' i' hr' (Finset.mem_range.mp hmem)]
    _ = if r' ≠ pr ∧ X r' jcol = 1 then 1 else 0 :=
        sum_mul_delta' N r' _ hr'

theorem eliminate_XisInv (M N pr jcol : ℕ) (X : ℕ → ℕ → ℕ) (Y : ℕ → ℕ → ZMod 2)
    (hpr : pr < N) (h01 : Rng01 N (M + N) X) (hY : XisInv M N X Y) :
    XisInv M N (eliminate X (M + N) N pr jcol) (elimY N pr jcol X Y) := by
  intro i c hi hc
  have key : ∀ t ∈ Finset.range (M + N),
      ((eliminate X (M + N) N pr jcol i t : ℕ) : ZMod 2) *
          elimY N pr jcol X Y t c =
        ((X i t : ZMod 2) * Y t c +
          (if i ≠ pr ∧ X i jcol = 1 then 1 else 0) *
            ((X pr t : ZMod 2) * Y t c)) +
        (if c = pr then 1 else 0) *
          ((X i t : ZMod 2) * chiS N pr jcol X Y t +
            (if i ≠ pr ∧ X i jcol = 1 then 1 else 0) *
              ((X pr t : ZMod 2) * chiS N pr jcol X Y t)) := by
    intro t ht
    rw [eliminate_cast M N pr jcol X hpr h01 i t hi (Finset.mem_range.mp ht)]
    simp only [elimY]
    ring
  rw [Finset.sum_congr rfl key, Finset.sum_add_distrib]
  have hA : ∑ t in Finset.range (M + N),
      ((X i t : ZMod 2) * Y t c +
        (if i ≠ pr ∧ X i jcol = 1 then 1 else 0) *
          ((X pr t : ZMod 2) * Y t c)) =
      (if i = c then 1 else 0) +
        (if i ≠ pr ∧ X i jcol = 1 then 1 else 0) *
          (if pr = c then 1 else 0) := by
    rw [Finset.sum_add_distrib, hY i c hi hc, ← Finset.mul_sum, hY pr c hpr hc]
  rw [hA, ← Finset.mul_sum, Finset.sum_add_distrib,
    sum_mul_chiS M N pr jcol X Y hY i hi, ← Finset.mul_sum,
    sum_mul_chiS M N pr jcol X Y hY pr hpr]
  rw [if_neg (fun h : pr ≠ pr ∧ X pr jcol = 1 => h.1 rfl), mul_zero, add_zero]
  rcases eq_or_ne c pr with rfl | hcpr
  · rw [if_pos (rfl : c = c), mul_one, one_mul, add_assoc, zmod2_add_self,
      add_zero]
  · have hnpc : ¬(pr = c) := fun h => hcpr h.symm
    rw [if_neg hnpc, if_neg hcpr, mul_zero, zero_mul, add_zero, add_zero]

/-! ### C1: invariant preservation under row and column swaps -/

theorem row_swap_Rng01 (M N a b : ℕ) (X : ℕ → ℕ → ℕ) (ha : a < N) (hb : b < N)
    (h01 : Rng01 N (M + N) X) : Rng01 N (M + N) (row_swap X a b) := by
  intro i c hi hc
  rw [row_swap_apply]
  exact h01 _ c (swap_lt ha hb hi) hc

theorem row_swap_XisInv (M N a b : ℕ) (X : ℕ → ℕ → ℕ) (Y : ℕ → ℕ → ZMod 2)
    (ha : a < N) (hb : b < N) (hY : XisInv M N X Y) :
    XisInv M N (row_swap X a b) (fun t c => Y t (Equiv.swap a b c)) := by
  intro i c hi hc
  have hre : ∀ t ∈ Finset.range (M + N),
      ((row_swap X a b i t : ℕ) : ZMod 2) * Y t (Equiv.swap a b c) =
        (X (Equiv.swap a b i) t : ZMod 2) * Y t (Equiv.swap a b c) :=
    fun t _ => by rw [row_swap_apply]
  rw [Finset.sum_congr rfl hre,
    hY _ _ (swap_lt ha hb hi) (swap_lt ha hb hc)]
  by_cases h : i = c
  · rw [if_pos (show Equiv.swap a b i = Equiv.swap a b c by rw [h]), if_pos h]
  · rw [if_neg (fun he => h ((Equiv.swap a b).injective he)), if_neg h]

theorem row_swap_BInv (M N a b : ℕ) (X : ℕ → ℕ → ℕ) (Cg : ℕ → ℕ → ZMod 2)
    (ha : a < N) (hb : b < N) (hB : BInv M N Cg X) :
    BInv M N Cg (row_swap X a b) := by
  intro m i hm hi
  have hre : ∀ t ∈ Finset.range (M + N),
      Cg m t * ((row_swap X a b i t : ℕ) : ZMod 2) =
        Cg m t * (X (Equiv.swap a b i) t : ZMod 2) :=
    fun t _ => by rw [row_swap_apply]
  rw [Finset.sum_congr rfl hre]
  exact hB m _ hm (swap_lt ha hb hi)

theorem row_swap_DInv (M N lvl a b : ℕ) (X : ℕ → ℕ → ℕ) (Dead : Finset ℕ)
    (ha : a < N) (hb : b < N) (hla : lvl ≤ a) (hlb : lvl ≤ b)
    (hD : DInv M N lvl X Dead) : DInv M N lvl (row_swap X a b) Dead := by
  intro s hs
  refine ⟨(hD s hs).1, fun i hli hi => ?_⟩
  rw [row_swap_apply]
  exact (hD s hs).2 _ (swap_le hla hlb hli) (swap_lt ha hb hi)

theorem row_swap_EInv1 (N lvl a b : ℕ) (X : ℕ → ℕ → ℕ)
    (ha : a < N) (hb : b < N) (hla : lvl ≤ a) (hlb : lvl ≤ b)
    (hE : EInv1 N lvl X) : EInv1 N lvl (row_swap X a b) := by
  intro c i hclt hi
  rw [row_swap_apply, hE c _ hclt (swap_lt ha hb hi)]
  by_cases h : i = c
  · subst h
    rw [if_pos (Equiv.swap_apply_of_ne_of_ne (show i ≠ a by omega)
      (show i ≠ b by omega)), if_pos rfl]
  · rw [if_neg, if_neg h]
    intro he
    apply h
    have h2 := congrArg (Equiv.swap a b) he
    rw [Equiv.swap_apply_self,
      Equiv.swap_apply_of_ne_of_ne (show c ≠ a by omega)
        (show c ≠ b by omega)] at h2
    exact h2

theorem col_swap_Rng01 (M N a b : ℕ) (X : ℕ → ℕ → ℕ)
    (ha : a < M + N) (hb : b < M + N) (h01 : Rng01 N (M + N) X) :
    Rng01 N (M + N) (col_swap X N a b) := by
  intro i c hi hc
  rw [col_swap_apply X N a b i c hi]
  exact h01 i _ hi (swap_lt ha hb hc)

theorem col_swap_XisInv (M N a b : ℕ) (X : ℕ → ℕ → ℕ) (Y : ℕ → ℕ → ZMod 2)
    (ha : a < M + N) (hb : b < M + N) (hY : XisInv M N X Y) :
    XisInv M N (col_swap X N a b) (fun t c => Y (Equiv.swap a b t) c) := by
  intro i c hi hc
  calc ∑ t in Finset.range (M + N),
        ((col_swap X N a b i t : ℕ) : ZMod 2) * Y (Equiv.swap a b t) c
      = ∑ t in Finset.range (M + N),
          (X i (Equiv.swap a b t) : ZMod 2) * Y (Equiv.swap a b t) c :=
        Finset.sum_congr rfl (fun t _ => by rw [col_swap_apply X N a b i t hi])
    _ = ∑ t in Finset.range (M + N), (X i t : ZMod 2) * Y t c :=
        sum_swap_reindex (M + N) a b ha hb (fun t => (X i t : ZMod 2) * Y t c)
    _ = if i = c then 1 else 0 := hY i c hi hc

theorem col_swap_BInv (M N a b : ℕ) (X : ℕ → ℕ → ℕ) (Cg : ℕ → ℕ → ZMod 2)
    (ha : a < M + N) (hb : b < M + N) (hB : BInv M N Cg X) :
    BInv M N (fun m t => Cg m (Equiv.swap a b t)) (col_swap X N a b) := by
  intro m i hm hi
  calc ∑ t in Finset.range (M + N),
        Cg m (Equiv.swap a b t) * ((col_swap X N a b i t : ℕ) : ZMod 2)
      = ∑ t in Finset.range (M + N),
          Cg m (Equiv.swap a b t) * (X i (Equiv.swap a b t) : ZMod 2) :=
        Finset.sum_congr rfl (fun t _ => by rw [col_swap_apply X N a b i t hi])
    _ = ∑ t in Finset.range (M + N), Cg m t * (X i t : ZMod 2) :=
        sum_swap_reindex (M + N) a b ha hb (fun t => Cg m t * (X i t : ZMod 2))
    _ = 0 := hB m i hm hi

theorem col_swap_EInv1 (N lvl a b : ℕ) (X : ℕ → ℕ → ℕ)
    (hla : lvl ≤ a) (hlb : lvl ≤ b) (hE : EInv1 N lvl X) :
    EInv1 N lvl (col_swap X N a b) := by
  intro c i hclt hi
  rw [col_swap_apply X N a b i c hi,
    Equiv.swap_apply_of_ne_of_ne (show c ≠ a by omega) (show c ≠ b by omega)]
  exact hE c i hclt hi

theorem find_pivot_row_some {X : ℕ → ℕ → ℕ} {j lo N i : ℕ}
    (h : find_pivot_row X j lo N = some i) : lo ≤ i ∧ i < N ∧ X i j = 1 := by
  have hmem := List.mem_of_find?_eq_some h
  have hp := List.find?_some h
  rw [List.mem_range'] at hmem
  obtain ⟨t, ht1, ht2⟩ := hmem
  simp only [beq_iff_eq] at hp
  exact ⟨by omega, by omega, hp⟩

theorem find_pivot_row_none {X : ℕ → ℕ → ℕ} {j lo N : ℕ}
    (h : find_pivot_row X j lo N = none) :
    ∀ i, lo ≤ i → i < N → X i j ≠ 1 := by
  intro i h1 h2
  have hm : i ∈ List.range' lo (N - lo) := by
    rw [List.mem_range']
    exact ⟨i - lo, by omega, by omega⟩
  have := List.find?_eq_none.mp h i hm
  simpa using this

theorem find_pivot_col_some {X : ℕ → ℕ → ℕ} {row lo hi k : ℕ}
    (h : find_pivot_col X row lo hi = some k) :
    lo ≤ k ∧ k < lo + (hi - lo) ∧ X row k = 1 := by
  have hb := find_pivot_col_bounds h
  have hp := List.find?_some h
  simp only [beq_iff_eq] at hp
  exact ⟨hb.1, hb.2, hp⟩

theorem find_pivot_col_none {X : ℕ → ℕ → ℕ} {row lo hi : ℕ}
    (h : find_pivot_col X row lo hi = none) :
    ∀ k, lo ≤ k → k < hi → X row k ≠ 1 := by
  intro k h1 h2
  have hm : k ∈ (List.range' lo (hi - lo)).reverse := by
    rw [List.mem_reverse, List.mem_range']
    exact ⟨k - lo, by omega, by omega⟩
  have := List.find?_eq_none.mp h k hm
  simpa using this

theorem elim_preserve (M N lvl pr jcol : ℕ) (X1 : ℕ → ℕ → ℕ)
    (Cg1 : ℕ → ℕ → ZMod 2) (Y1 : ℕ → ℕ → ZMod 2) (Dead1 : Finset ℕ)
    (hpr : pr < N) (hlvl : lvl ≤ pr) (hjcol : jcol < M + N)
    (h01 : Rng01 N (M + N) X1) (hY : XisInv M N X1 Y1) (hB : BInv M N Cg1 X1)
    (hD : DInv M N lvl X1 Dead1) (hE : EInv1 N lvl X1)
    (hpiv : X1 pr jcol = 1) :
    Rng01 N (M + N) (eliminate X1 (M + N) N pr jcol) ∧
    XisInv M N (eliminate X1 (M + N) N pr jcol) (elimY N pr jcol X1 Y1) ∧
    BInv M N Cg1 (eliminate X1 (M + N) N pr jcol) ∧
    DInv M N lvl (eliminate X1 (M + N) N pr jcol) Dead1 ∧
    EInv1 N lvl (eliminate X1 (M + N) N pr jcol) ∧
    (∀ i, i < N →
      eliminate X1 (M + N) N pr jcol i jcol = if i = pr then 1 else 0) := by
  refine ⟨eliminate_Rng01 M N pr jcol X1 hpr h01,
    eliminate_XisInv M N pr jcol X1 Y1 hpr h01 hY,
    eliminate_BInv M N pr jcol X1 Cg1 hpr h01 hB, ?_, ?_, ?_⟩
  · intro s hs
    refine ⟨(hD s hs).1, fun i hli hi => ?_⟩
    rw [eliminate_col_unchanged X1 (M + N) N pr jcol (M + s)
      ((hD s hs).2 pr hlvl hpr)]
    exact (hD s hs).2 i hli hi
  · intro c i hclt hi
    have hprc : X1 pr c = 0 := by
      rw [hE c pr hclt hpr, if_neg (show ¬(pr = c) by omega)]
    rw [eliminate_col_unchanged X1 (M + N) N pr jcol c hprc]
    exact hE c i hclt hi
  · exact eliminate_pivot_col X1 (M + N) N pr jcol hjcol hpiv
      (fun i hi => h01 i jcol hi hjcol)

/-! ### C1: phase-1 step preserves the invariant -/

theorem p1_step_P1Inv (M N j : ℕ) (H0 X : ℕ → ℕ → ℕ)
    (hj : j < M) (hMN : M ≤ N) (h : P1Inv M N j H0 X) :
    P1Inv M N (j + 1) H0 (p1_step M N X j) := by
  obtain ⟨Cg, Y, Dead, h01, hY, hB, hC, hD, hE⟩ := h
  have hjN : j < N := lt_of_lt_of_le hj hMN
  have hjMN : j < M + N := by omega
  by_cases h0 : X j j = 0
  · cases hrow : find_pivot_row X j (j + 1) N with
    | some i =>
      obtain ⟨hi1, hi2, hi3⟩ := find_pivot_row_some hrow
      have hstep : p1_step M N X j = eliminate (row_swap X i j) (M + N) N j j := by
        simp [p1_step, h0, hrow]
      rw [hstep]
      have hjle : j ≤ i := by omega
      have h01' := row_swap_Rng01 M N i j X hi2 hjN h01
      have hY' := row_swap_XisInv M N i j X Y hi2 hjN hY
      have hB' := row_swap_BInv M N i j X Cg hi2 hjN hB
      have hD' := row_swap_DInv M N j i j X Dead hi2 hjN hjle le_rfl hD
      have hE' := row_swap_EInv1 N j i j X hi2 hjN hjle le_rfl hE
      have hpiv : row_swap X i j j j = 1 := by
        rw [row_swap_apply, Equiv.swap_apply_right]
        exact hi3
      obtain ⟨q1, q2, q3, q4, q5, q6⟩ :=
        elim_preserve M N j j j (row_swap X i j) Cg
          (fun t c => Y t (Equiv.swap i j c)) Dead
          hjN le_rfl hjMN h01' hY' hB' hD' hE' hpiv
      refine ⟨Cg, _, Dead, q1, q2, q3, hC, ?_, ?_⟩
      · intro s hs
        exact ⟨(q4 s hs).1, fun i' hli' hi' => (q4 s hs).2 i' (by omega) hi'⟩
      · intro c i' hclt hi'
        rcases Nat.lt_succ_iff_lt_or_eq.mp hclt with hcj | rfl
        · exact q5 c i' hcj hi'
        · exact q6 i' hi'
    | none =>
      have hrnone := find_pivot_row_none hrow
      cases hcol : find_pivot_col X j (j + 1) (M + N) with
      | some k =>
        obtain ⟨hk1, hk2, hk3⟩ := find_pivot_col_some hcol
        have hk2' : k < M + N := by omega
        have hstep : p1_step M N X j =
            eliminate (col_swap X N k j) (M + N) N j j := by
          simp [p1_step, h0, hrow, hcol]
        rw [hstep]
        have h01' := col_swap_Rng01 M N k j X hk2' hjMN h01
        have hY' := col_swap_XisInv M N k j X Y hk2' hjMN hY
        have hB' := col_swap_BInv M N k j X Cg hk2' hjMN hB
        have hE' := col_swap_EInv1 N j k j X (by omega) le_rfl hE
        have hpiv : col_swap X N k j j j = 1 := by
          rw [col_swap_apply X N k j j j hjN, Equiv.swap_apply_right]
          exact hk3
        have hXij0 : ∀ i', j ≤ i' → i' < N → X i' j = 0 := by
          intro i' hji' hi'
          rcases Nat.eq_or_lt_of_le hji' with rfl | hlt
          · exact h0
          · rcases h01 i' j hi' hjMN with hz | ho
            · exact hz
            · exact absurd ho (hrnone i' (by omega) hi')
        by_cases hkM : M ≤ k
        · -- cross swap: right-block position k - M becomes dead
          have hs0nd : k - M ∉ Dead := by
            intro hmem
            have hz := (hD (k - M) hmem).2 j le_rfl hjN
            rw [show M + (k - M) = k from by omega] at hz
            rw [hz] at hk3
            exact absurd hk3 (by decide)
          have hD' : DInv M N j (col_swap X N k j) (insert (k - M) Dead) := by
            intro s hs
            rcases Finset.mem_insert.mp hs with rfl | hsd
            · refine ⟨by omega, fun i' hji' hi' => ?_⟩
              rw [show M + (k - M) = k from by omega,
                col_swap_apply X N k j i' k hi', Equiv.swap_apply_left]
              exact hXij0 i' hji' hi'
            · obtain ⟨hsN, hrows⟩ := hD s hsd
              have hMsk : M + s ≠ k := by
                intro he
                apply hs0nd
                have hss : s = k - M := by omega
                rwa [hss] at hsd
              refine ⟨hsN, fun i' hji' hi' => ?_⟩
              rw [col_swap_apply X N k j i' (M + s) hi',
                Equiv.swap_apply_of_ne_of_ne hMsk (show M + s ≠ j by omega)]
              exact hrows i' hji' hi'
          have hC' : CInv M N (fun m t => Cg m (Equiv.swap k j t)) H0
              (insert (k - M) Dead) := by
            intro m s hm hsN hsni
            have hsnot : s ≠ k - M :=
              fun he => hsni (he ▸ Finset.mem_insert_self (k - M) Dead)
            have hsd : s ∉ Dead := fun hmem => hsni (Finset.mem_insert_of_mem hmem)
            show Cg m (Equiv.swap k j (M + s)) = _
            rw [Equiv.swap_apply_of_ne_of_ne (show M + s ≠ k by omega)
              (show M + s ≠ j by omega)]
            exact hC m s hm hsN hsd
          obtain ⟨q1, q2, q3, q4, q5, q6⟩ :=
            elim_preserve M N j j j (col_swap X N k j)
              (fun m t => Cg m (Equiv.swap k j t))
              (fun t c => Y (Equiv.swap k j t) c) (insert (k - M) Dead)
              hjN le_rfl hjMN h01' hY' hB' hD' hE' hpiv
          refine ⟨_, _, _, q1, q2, q3, hC', ?_, ?_⟩
          · intro s hs
            exact ⟨(q4 s hs).1, fun i' hli' hi' => (q4 s hs).2 i' (by omega) hi'⟩
          · intro c i' hclt hi'
            rcases Nat.lt_succ_iff_lt_or_eq.mp hclt with hcj | rfl
            · exact q5 c i' hcj hi'
            · exact q6 i' hi'
        · -- left-block swap: `Dead` unchanged
          have hD' : DInv M N j (col_swap X N k j) Dead := by
            intro s hs
            obtain ⟨hsN, hrows⟩ := hD s hs
            refine ⟨hsN, fun i' hji' hi' => ?_⟩
            rw [col_swap_apply X N k j i' (M + s) hi',
              Equiv.swap_apply_of_ne_of_ne (show M + s ≠ k by omega)
                (show M + s ≠ j by omega)]
            exact hrows i' hji' hi'
          have hC' : CInv M N (fun m t => Cg m (Equiv.swap k j t)) H0 Dead := by
            intro m s hm hsN hsd
            show Cg m (Equiv.swap k j (M + s)) = _
            rw [Equiv.swap_apply_of_ne_of_ne (show M + s ≠ k by omega)
              (show M + s ≠ j by omega)]
            exact hC m s hm hsN hsd
          obtain ⟨q1, q2, q3, q4, q5, q6⟩ :=
            elim_preserve M N j j j (col_swap X N k j)
              (fun m t => Cg m (Equiv.swap k j t))
              (fun t c => Y (Equiv.swap k j t) c) Dead
              hjN le_rfl hjMN h01' hY' hB' hD' hE' hpiv
          refine ⟨_, _, _, q1, q2, q3, hC', ?_, ?_⟩
          · intro s hs
            exact ⟨(q4 s hs).1, fun i' hli' hi' => (q4 s hs).2 i' (by omega) hi'⟩
          · intro c i' hclt hi'
            rcases Nat.lt_succ_iff_lt_or_eq.mp hclt with hcj | rfl
            · exact q5 c i' hcj hi'
            · exact q6 i' hi'
      | none =>
        exfalso
        have hcnone := find_pivot_col_none hcol
        have hzero : ∀ t, t < M + N → (X j t : ZMod 2) = 0 := by
          intro t ht
          rcases lt_trichotomy t j with h1 | rfl | h3
          · rw [hE t j h1 hjN, if_neg (show ¬(j = t) by omega)]
            simp
          · rw [h0]
            simp
          · have hne : X j t ≠ 1 := hcnone t (by omega) ht
            rcases h01 j t hjN ht with hz | ho
            · rw [hz]; simp
            · exact absurd ho hne
        have h1 := hY j j hjN hjN
        rw [if_pos rfl] at h1
        have h2 : ∑ t in Finset.range (M + N), (X j t : ZMod 2) * Y t j = 0 :=
          Finset.sum_eq_zero
            (fun t ht => by rw [hzero t (Finset.mem_range.mp ht), zero_mul])
        rw [h2] at h1
        exact absurd h1 (by decide)
  · have hpiv : X j j = 1 := by
      rcases h01 j j hjN hjMN with hz | ho
      · exact absurd hz h0
      · exact ho
    have hstep : p1_step M N X j = eliminate X (M + N) N j j := by
      simp [p1_step, h0]
    rw [hstep]
    obtain ⟨q1, q2, q3, q4, q5, q6⟩ :=
      elim_preserve M N j j j X Cg Y Dead hjN le_rfl hjMN h01 hY hB hD hE hpiv
    refine ⟨Cg, _, Dead, q1, q2, q3, hC, ?_, ?_⟩
    · intro s hs
      exact ⟨(q4 s hs).1, fun i' hli' hi' => (q4 s hs).2 i' (by omega) hi'⟩
    · intro c i' hclt hi'
      rcases Nat.lt_succ_iff_lt_or_eq.mp hclt with hcj | rfl
      · exact q5 c i' hcj hi'
      · exact q6 i' hi'

/-! ### C1: initialization, phase-1 induction, transfer to phase 2 -/

theorem cast_ite01 (P : Prop) [Decidable P] :
    (((if P then 1 else 0 : ℕ)) : ZMod 2) = if P then 1 else 0 := by
  split <;> simp

theorem build_X_P1Inv (M N : ℕ) (H0 : ℕ → ℕ → ℕ)
    (h01 : ∀ m s, m < M → s < N → is01 (H0 m s)) :
    P1Inv M N 0 H0 (build_X H0 M N) := by
  refine ⟨fun m t => if t < M then (if t = m then 1 else 0)
      else (H0 m (t - M) : ZMod 2),
    fun t c => if t = M + c then 1 else 0, ∅, ?_, ?_, ?_, ?_, ?_, ?_⟩
  · -- Rng01
    intro i c hi hc
    show is01 (build_X H0 M N i c)
    unfold build_X
    by_cases h1 : c < M
    · rw [if_pos ⟨hi, h1⟩]
      exact h01 c i h1 hi
    · rw [if_neg (fun h => h1 h.2), if_pos ⟨hi, by omega, hc⟩]
      split
      · exact Or.inr rfl
      · exact Or.inl rfl
  · -- XisInv
    intro i c hi hc
    calc ∑ t in Finset.range (M + N),
          ((build_X H0 M N i t : ℕ) : ZMod 2) * (if t = M + c then 1 else 0)
        = ((build_X H0 M N i (M + c) : ℕ) : ZMod 2) :=
          sum_mul_delta (M + N) (M + c)
            (fun t => ((build_X H0 M N i t : ℕ) : ZMod 2)) (by omega)
      _ = if i = c then 1 else 0 := by
          unfold build_X
          rw [if_neg (fun h => by omega), if_pos ⟨hi, by omega, by omega⟩,
            show M + c - M = c from by omega, cast_ite01]
  · -- BInv
    intro m i hm hi
    rw [Finset.sum_range_add]
    have hfst : ∑ t in Finset.range M,
        (if t < M then (if t = m then (1 : ZMod 2) else 0)
          else (H0 m (t - M) : ZMod 2)) * ((build_X H0 M N i t : ℕ) : ZMod 2) =
        ∑ t in Finset.range M,
          (if t = m then (1 : ZMod 2) else 0) * ((H0 t i : ℕ) : ZMod 2) := by
      refine Finset.sum_congr rfl (fun t ht => ?_)
      have htM := Finset.mem_range.mp ht
      rw [if_pos htM, show build_X H0 M N i t = H0 t i from by
        unfold build_X; rw [if_pos ⟨hi, htM⟩]]
    have hsnd : ∑ t in Finset.range N,
        (if M + t < M then (if M + t = m then (1 : ZMod 2) else 0)
          else (H0 m (M + t - M) : ZMod 2)) *
          ((build_X H0 M N i (M + t) : ℕ) : ZMod 2) =
        ∑ t in Finset.range N,
          ((H0 m t : ℕ) : ZMod 2) * (if i = t then 1 else 0) := by
      refine Finset.sum_congr rfl (fun t ht => ?_)
      have htN := Finset.mem_range.mp ht
      rw [if_neg (show ¬(M + t < M) by omega), show M + t - M = t from by omega,
        show build_X H0 M N i (M + t) = if i = t then 1 else 0 from by
          unfold build_X
          rw [if_neg (show ¬(i < N ∧ M + t < M) by omega),
            if_pos ⟨hi, show M ≤ M + t by omega, show M + t < M + N by omega⟩,
            show M + t - M = t from by omega],
        cast_ite01]
    rw [hfst, hsnd, sum_delta_mul M m (fun t => ((H0 t i : ℕ) : ZMod 2)) hm,
      sum_mul_delta' N i (fun t => ((H0 m t : ℕ) : ZMod 2)) hi,
      zmod2_add_self]
  · -- CInv
    intro m s hm hs _
    show (if M + s < M then (if M + s = m then (1 : ZMod 2) else 0)
        else (H0 m (M + s - M) : ZMod 2)) = (H0 m s : ZMod 2)
    rw [if_neg (show ¬(M + s < M) by omega), show M + s - M = s from by omega]
  · -- DInv
    intro s hs
    exact absurd hs (Finset.not_mem_empty s)
  · -- EInv1
    intro c i hclt _
    exact absurd hclt (Nat.not_lt_zero c)

theorem phase1_P1Inv (M N : ℕ) (H0 X0 : ℕ → ℕ → ℕ) (hMN : M ≤ N)
    (h : P1Inv M N 0 H0 X0) :
    ∀ j, j ≤ M → P1Inv M N j H0 (phase1 M N j X0) := by
  intro j
  induction j with
  | zero => exact fun _ => h
  | succ j ih =>
    intro hj
    exact p1_step_P1Inv M N j H0 (phase1 M N j X0) (by omega) hMN (ih (by omega))

theorem P1_to_P2 (M N : ℕ) (H0 X : ℕ → ℕ → ℕ) (h : P1Inv M N M H0 X) :
    P2Inv M N ⟨X, H0⟩ := by
  obtain ⟨Cg, Y, Dead, h1, h2, h3, h4, h5, h6⟩ := h
  exact ⟨Cg, Y, Dead, h1, h2, h3, h4, h5, h6⟩

theorem mem_image_swap (Dead : Finset ℕ) (a b s : ℕ) :
    s ∈ Dead.image (Equiv.swap a b) ↔ Equiv.swap a b s ∈ Dead := by
  rw [Finset.mem_image]
  constructor
  · rintro ⟨x, hx, hxs⟩
    rwa [← hxs, Equiv.swap_apply_self]
  · intro h
    exact ⟨Equiv.swap a b s, h, Equiv.swap_apply_self a b s⟩

theorem p2_step_eq (M N n : ℕ) (s : GState) :
    p2_step M N s (2 * M + n) =
      if s.X (M + n) (2 * M + n) = 0 then
        match find_pivot_row s.X (2 * M + n) (M + n + 1) N with
        | some i =>
          ⟨eliminate (row_swap s.X i (M + n)) (M + N) N (M + n) (2 * M + n), s.H⟩
        | none =>
          match find_pivot_col s.X (M + n) M (M + N) with
          | some k =>
            ⟨eliminate (col_swap s.X N k (2 * M + n)) (M + N) N (M + n)
                (2 * M + n),
              hcol_swap s.H M (k - M) (M + n)⟩
          | none => ⟨eliminate s.X (M + N) N (M + n) (2 * M + n), s.H⟩
      else ⟨eliminate s.X (M + N) N (M + n) (2 * M + n), s.H⟩ := by
  have e1 : 2 * M + n - M = M + n := by omega
  simp only [p2_step, e1]

/-! ### C1: phase-2 step preserves the invariant -/

theorem p2_step_P2Inv (M N n : ℕ) (s : GState) (hn : M + n < N)
    (h : P2Inv M N s) : P2Inv M N (p2_step M N s (2 * M + n)) := by
  obtain ⟨Cg, Y, Dead, h01, hY, hB, hC, hD, hE⟩ := h
  have hprN : M + n < N := hn
  have hjMN : 2 * M + n < M + N := by omega
  rw [p2_step_eq]
  by_cases h0 : s.X (M + n) (2 * M + n) = 0
  · rw [if_pos h0]
    cases hrow : find_pivot_row s.X (2 * M + n) (M + n + 1) N with
    | some i =>
      simp only [hrow]
      obtain ⟨hi1, hi2, hi3⟩ := find_pivot_row_some hrow
      have h01' := row_swap_Rng01 M N i (M + n) s.X hi2 hprN h01
      have hY' := row_swap_XisInv M N i (M + n) s.X Y hi2 hprN hY
      have hB' := row_swap_BInv M N i (M + n) s.X Cg hi2 hprN hB
      have hD' := row_swap_DInv M N M i (M + n) s.X Dead hi2 hprN (by omega)
        (by omega) hD
      have hE' := row_swap_EInv1 N M i (M + n) s.X hi2 hprN (by omega)
        (by omega) hE
      have hpiv : row_swap s.X i (M + n) (M + n) (2 * M + n) = 1 := by
        rw [row_swap_apply, Equiv.swap_apply_right]
        exact hi3
      obtain ⟨q1, q2, q3, q4, q5, q6⟩ :=
        elim_preserve M N M (M + n) (2 * M + n) (row_swap s.X i (M + n)) Cg
          (fun t c => Y t (Equiv.swap i (M + n) c)) Dead
          hprN (by omega) hjMN h01' hY' hB' hD' hE' hpiv
      exact ⟨Cg, _, Dead, q1, q2, q3, hC, q4, q5⟩
    | none =>
      simp only [hrow]
      cases hcol : find_pivot_col s.X (M + n) M (M + N) with
      | some k =>
        simp only [hcol]
        obtain ⟨hk1, hk2, hk3⟩ := find_pivot_col_some hcol
        have hkMN : k < M + N := by omega
        have h01' := col_swap_Rng01 M N k (2 * M + n) s.X hkMN hjMN h01
        have hY' := col_swap_XisInv M N k (2 * M + n) s.X Y hkMN hjMN hY
        have hB' := col_swap_BInv M N k (2 * M + n) s.X Cg hkMN hjMN hB
        have hE' := col_swap_EInv1 N M k (2 * M + n) s.X hk1 (by omega) hE
        have hpiv : col_swap s.X N k (2 * M + n) (M + n) (2 * M + n) = 1 := by
          rw [col_swap_apply s.X N k (2 * M + n) (M + n) (2 * M + n) hprN,
            Equiv.swap_apply_right]
          exact hk3
        have hD' : DInv M N M (col_swap s.X N k (2 * M + n))
            (Dead.image (Equiv.swap (k - M) (M + n))) := by
          intro sd hsd
          have hs' : Equiv.swap (k - M) (M + n) sd ∈ Dead :=
            (mem_image_swap Dead (k - M) (M + n) sd).mp hsd
          obtain ⟨hsN', hrows'⟩ := hD _ hs'
          have hsdN : sd < N := by
            have hlt := swap_lt (show k - M < N by omega)
              (show M + n < N by omega) hsN'
            rwa [Equiv.swap_apply_self] at hlt
          have hshift : Equiv.swap k (2 * M + n) (M + sd) =
              M + Equiv.swap (k - M) (M + n) sd := by
            have hsh := swap_shift M k (2 * M + n) sd (by omega) (by omega)
            rwa [show 2 * M + n - M = M + n from by omega] at hsh
          refine ⟨hsdN, fun i' hMi' hi' => ?_⟩
          rw [col_swap_apply s.X N k (2 * M + n) i' (M + sd) hi', hshift]
          exact hrows' i' hMi' hi'
        have hC' : CInv M N (fun m t => Cg m (Equiv.swap k (2 * M + n) t))
            (hcol_swap s.H M (k - M) (M + n))
            (Dead.image (Equiv.swap (k - M) (M + n))) := by
          intro m sd hm hsdN hsdnot
          have hs'not : Equiv.swap (k - M) (M + n) sd ∉ Dead :=
            fun hmem => hsdnot ((mem_image_swap Dead (k - M) (M + n) sd).mpr hmem)
          have hs'N : Equiv.swap (k - M) (M + n) sd < N :=
            swap_lt (show k - M < N by omega) (show M + n < N by omega) hsdN
          have hshift : Equiv.swap k (2 * M + n) (M + sd) =
              M + Equiv.swap (k - M) (M + n) sd := by
            have hsh := swap_shift M k (2 * M + n) sd (by omega) (by omega)
            rwa [show 2 * M + n - M = M + n from by omega] at hsh
          show Cg m (Equiv.swap k (2 * M + n) (M + sd)) = _
          rw [hshift, hcol_swap_apply s.H M (k - M) (M + n) m sd hm]
          exact hC m _ hm hs'N hs'not
        obtain ⟨q1, q2, q3, q4, q5, q6⟩ :=
          elim_preserve M N M (M + n) (2 * M + n) (col_swap s.X N k (2 * M + n))
            (fun m t => Cg m (Equiv.swap k (2 * M + n) t))
            (fun t c => Y (Equiv.swap k (2 * M + n) t) c)
            (Dead.image (Equiv.swap (k - M) (M + n)))
            hprN (by omega) hjMN h01' hY' hB' hD' hE' hpiv
        exact ⟨_, _, _, q1, q2, q3, hC', q4, q5⟩
      | none =>
        exfalso
        have hcnone := find_pivot_col_none hcol
        have hzero : ∀ u, u < M + N → (s.X (M + n) u : ZMod 2) = 0 := by
          intro u hu
          by_cases h1 : u < M
          · rw [hE u (M + n) h1 hprN, if_neg (show ¬(M + n = u) by omega)]
            simp
          · have hne : s.X (M + n) u ≠ 1 := hcnone u (by omega) hu
            rcases h01 (M + n) u hprN hu with hz | ho
            · rw [hz]; simp
            · exact absurd ho hne
        have h1 := hY (M + n) (M + n) hprN hprN
        rw [if_pos rfl] at h1
        have h2 : ∑ u in Finset.range (M + N),
            (s.X (M + n) u : ZMod 2) * Y u (M + n) = 0 :=
          Finset.sum_eq_zero
            (fun u hu => by rw [hzero u (Finset.mem_range.mp hu), zero_mul])
        rw [h2] at h1
        exact absurd h1 (by decide)
  · rw [if_neg h0]
    have hpiv : s.X (M + n) (2 * M + n) = 1 := by
      rcases h01 (M + n) (2 * M + n) hprN hjMN with hz | ho
      · exact absurd hz h0
      · exact ho
    obtain ⟨q1, q2, q3, q4, q5, q6⟩ :=
      elim_preserve M N M (M + n) (2 * M + n) s.X Cg Y Dead hprN (by omega)
        hjMN h01 hY hB hD hE hpiv
    exact ⟨Cg, _, Dead, q1, q2, q3, hC, q4, q5⟩

theorem phase2_P2Inv (M N : ℕ) (s : GState) (h : P2Inv M N s) :
    ∀ n, M + n ≤ N → P2Inv M N (phase2 M N n s) := by
  intro n
  induction n with
  | zero => exact fun _ => h
  | succ n ih =>
    intro hn
    exact p2_step_P2Inv M N n (phase2 M N n s) (by omega) (ih (by omega))

/-! ### C1: conclusion — `H · Gᵀ = 0` over GF(2) -/

theorem generate_Hmatrix_is01 (rnd : ℕ → ℕ) (N wc wr r c : ℕ) :
    is01 (generate_Hmatrix rnd N wc wr r c) := by
  rw [generate_Hmatrix_char]
  split
  · rw [block0_stage_char]
    split
    · exact Or.inr rfl
    · exact Or.inl rfl
  · rw [block0_stage_char]
    split
    · exact Or.inr rfl
    · exact Or.inl rfl

theorem HGT_zero (M N : ℕ) (s2 : GState) (h : P2Inv M N s2) (m t : ℕ)
    (hm : m < M) (ht : M + t < N) :
    (∑ s in Finset.range N, s2.H m s * s2.X (M + t) (M + s)) % 2 = 0 := by
  obtain ⟨Cg, Y, Dead, h01, hY, hB, hC, hD, hE⟩ := h
  have hBmi := hB m (M + t) hm ht
  rw [Finset.sum_range_add] at hBmi
  have hleft : ∑ c in Finset.range M, Cg m c * (s2.X (M + t) c : ZMod 2) = 0 := by
    apply Finset.sum_eq_zero
    intro c hcm
    have hcM := Finset.mem_range.mp hcm
    rw [hE c (M + t) hcM ht, if_neg (show ¬(M + t = c) by omega)]
    simp
  rw [hleft, zero_add] at hBmi
  have hmain : ∑ x in Finset.range N,
      (s2.H m x : ZMod 2) * (s2.X (M + t) (M + x) : ZMod 2) = 0 := by
    rw [← hBmi]
    refine Finset.sum_congr rfl (fun x hx => ?_)
    have hxN := Finset.mem_range.mp hx
    by_cases hdead : x ∈ Dead
    · rw [(hD x hdead).2 (M + t) (by omega) ht]
      simp
    · rw [hC m x hm hxN hdead]
  have hcast : ((∑ s in Finset.range N,
      s2.H m s * s2.X (M + t) (M + s) : ℕ) : ZMod 2) = 0 := by
    push_cast
    exact hmain
  have hdvd : (2 : ℕ) ∣ ∑ s in Finset.range N, s2.H m s * s2.X (M + t) (M + s) :=
    (CharP.cast_eq_zero_iff (ZMod 2) 2 _).mp hcast
  omega

/-- **C1.** For every `(H, G)` pair produced by `generate_Hmatrix` followed by
`generate_Gmatrix` on the same `H` (under the agreed preconditions `wc < wr`
and `wr ∣ N·wc`, with `M = N·wc/wr` and `K = N − M`), every row `g` of the
returned `G` satisfies `H·gᵀ = 0` over GF(2), where `H` is the possibly
column-permuted matrix as it stands after `generate_Gmatrix` returns. -/
theorem claim_C1 (rnd : ℕ → ℕ) (N wc wr : ℕ) (hlt : wc < wr)
    (hdvd : wr ∣ N * wc) :
    ∀ m t, m < N * wc / wr → t < N - N * wc / wr →
      (∑ s in Finset.range N,
          (generate_Gmatrix (generate_Hmatrix rnd N wc wr) N wc wr).2 m s *
            (generate_Gmatrix (generate_Hmatrix rnd N wc wr) N wc wr).1 t s) % 2
        = 0 := by
  intro m t hm ht
  have hwr : 0 < wr := by omega
  have hM : N * wc / wr ≤ N := by
    have h1 : N * wc ≤ N * wr := Nat.mul_le_mul_left N (le_of_lt hlt)
    have h2 : N * wc / wr ≤ N * wr / wr := Nat.div_le_div_right h1
    rwa [Nat.mul_div_cancel N hwr] at h2
  have h01H : ∀ m' s', m' < N * wc / wr → s' < N →
      is01 (generate_Hmatrix rnd N wc wr m' s') :=
    fun m' s' _ _ => generate_Hmatrix_is01 rnd N wc wr m' s'
  have h1 := build_X_P1Inv (N * wc / wr) N (generate_Hmatrix rnd N wc wr) h01H
  have h2 := phase1_P1Inv (N * wc / wr) N (generate_Hmatrix rnd N wc wr)
    (build_X (generate_Hmatrix rnd N wc wr) (N * wc / wr) N) hM h1
    (N * wc / wr) le_rfl
  have h3 := P1_to_P2 (N * wc / wr) N (generate_Hmatrix rnd N wc wr)
    (phase1 (N * wc / wr) N (N * wc / wr)
      (build_X (generate_Hmatrix rnd N wc wr) (N * wc / wr) N)) h2
  have h4 := phase2_P2Inv (N * wc / wr) N _ h3 (N - N * wc / wr) (by omega)
  exact HGT_zero (N * wc / wr) N _ h4 m t hm (by omega)

theorem claim_C1_witness :
    1 < 2 ∧ (2 ∣ 2 * 1) ∧
      ∀ m t, m < 2 * 1 / 2 → t < 2 - 2 * 1 / 2 →
        (∑ s in Finset.range 2,
            (generate_Gmatrix (generate_Hmatrix (fun _ => 0) 2 1 2) 2 1 2).2 m s *
              (generate_Gmatrix (generate_Hmatrix (fun _ => 0) 2 1 2) 2 1 2).1 t s)
            % 2 = 0 :=
  ⟨by decide, by decide, claim_C1 (fun _ => 0) 2 1 2 (by decide) (by decide)⟩
